import Mathlib

/-!
# Verification of the cron schedule search engine (`spec.go`)

This file gives a shallow embedding of the repository's single source file
`spec.go` (package `cron`) and proves the specification claims about it.

Modelling conventions:

* An instant (`time.Time`) is modelled as `Int`: wall-clock nanoseconds since
  the Unix epoch 1970-01-01T00:00:00.  The schedule's `Location` is modelled as
  a fixed-offset zone (the same zone as the queried instant), so the
  `In`/`Location` conversions of the source are identities and daylight-saving
  transitions do not occur.  Go's calendar functions (`Date`, `AddDate`,
  `Year`, `Month`, `Day`, `Hour`, `Minute`, `Second`, `Nanosecond`, `Weekday`,
  `Truncate`) are reproduced over the proleptic Gregorian calendar exactly as
  the `time` package computes them for a fixed-offset zone.
* `big.Int` bit vectors are modelled as `Nat` (the parser only produces
  non-negative values, and `(·).Bit i` on a non-negative `big.Int` is
  `Nat.testBit`).
* The unbounded `for`/`goto WRAP` search of `Next`/`Latest` is modelled with a
  fuel parameter; running out of fuel yields `none`, the same value as the
  sentinel `time.Time{}` return ("no time found").
-/

namespace Cron

/-! ## Calendar primitives (proleptic Gregorian, as in Go's `time` package) -/

/-- Leap-year predicate: divisible by 4 and not by 100, or divisible by 400. -/
def isLeap (y : Int) : Bool := (y % 4 == 0 && y % 100 != 0) || y % 400 == 0

/-- Number of days in year `y`. -/
def daysInYear (y : Int) : Int := if isLeap y then 366 else 365

/-- Days from 0001-01-01 to the January 1st of year `y` (proleptic Gregorian,
floor-division continuation for years before 1). -/
def toYS (y : Int) : Int := 365 * (y - 1) + (y - 1) / 4 - (y - 1) / 100 + (y - 1) / 400

/-- Year-of-era (0..399) containing day-of-era `doe` (0..146096); an era is a
400-year cycle of 146097 days whose first day is January 1st. -/
def yearAux (doe : Int) : Int :=
  let c := min (doe / 36524) 3
  let r1 := doe - 36524 * c
  let q4 := r1 / 1461
  let r2 := r1 - 1461 * q4
  let y1 := min (r2 / 365) 3
  100 * c + 4 * q4 + y1

/-- The year containing absolute day `z` (day 0 = 0001-01-01). -/
def yearOfDays (z : Int) : Int := 400 * (z / 146097) + yearAux (z % 146097) + 1

theorem isLeap_iff (y : Int) :
    isLeap y = true ↔ ((y % 4 = 0 ∧ ¬ y % 100 = 0) ∨ y % 400 = 0) := by
  simp [isLeap]

theorem toYS_shift (e n : Int) : toYS (400 * e + n) = 146097 * e + toYS n := by
  unfold toYS; omega

theorem toYS_succ (y : Int) : toYS (y + 1) = toYS y + daysInYear y := by
  have h := isLeap_iff y
  unfold toYS daysInYear
  by_cases hL : isLeap y = true <;> simp [hL] at h ⊢ <;> omega

theorem toYS_mono {a b : Int} (h : a ≤ b) : toYS a ≤ toYS b := by
  unfold toYS; omega

theorem toYS_strict {a b : Int} (h : a < b) : toYS a + 365 ≤ toYS b := by
  unfold toYS; omega

theorem daysInYear_bounds (y : Int) : 365 ≤ daysInYear y ∧ daysInYear y ≤ 366 := by
  unfold daysInYear; split <;> omega

theorem yearAux_bracket (doe : Int) (h0 : 0 ≤ doe) (h1 : doe < 146097) :
    toYS (yearAux doe + 1) ≤ doe ∧ doe < toYS (yearAux doe + 2) ∧
    0 ≤ yearAux doe ∧ yearAux doe ≤ 399 := by
  simp only [yearAux, toYS]
  generalize hc : min (doe / 36524) 3 = c
  have hc' : 0 ≤ c ∧ c ≤ 3 ∧ 36524 * c ≤ doe ∧ doe - 36524 * c ≤ 36524 ∧
      (c < 3 → doe - 36524 * c ≤ 36523) := by omega
  generalize hq : (doe - 36524 * c) / 1461 = q
  have hq' : 0 ≤ q ∧ q ≤ 24 ∧ 1461 * q ≤ doe - 36524 * c ∧
      doe - 36524 * c - 1461 * q ≤ 1460 := by omega
  generalize hy : min ((doe - 36524 * c - 1461 * q) / 365) 3 = y1
  have hy' : 0 ≤ y1 ∧ y1 ≤ 3 ∧ 365 * y1 ≤ doe - 36524 * c - 1461 * q ∧
      doe - 36524 * c - 1461 * q - 365 * y1 ≤ 365 ∧
      (doe - 36524 * c - 1461 * q - 365 * y1 = 365 → y1 = 3) := by omega
  obtain ⟨c0, c3, -, -, -⟩ := hc'
  obtain ⟨y0, y3, -, -, -⟩ := hy'
  interval_cases c <;> interval_cases y1 <;> omega

theorem yearOfDays_bracket (z : Int) :
    toYS (yearOfDays z) ≤ z ∧ z < toYS (yearOfDays z + 1) := by
  have h1 : 0 ≤ z % 146097 := Int.emod_nonneg z (by norm_num)
  have h2 : z % 146097 < 146097 := Int.emod_lt_of_pos z (by norm_num)
  have h3 := yearAux_bracket (z % 146097) h1 h2
  have h4 : z = 146097 * (z / 146097) + z % 146097 := (Int.ediv_add_emod z 146097).symm
  unfold yearOfDays
  constructor
  · calc toYS (400 * (z / 146097) + yearAux (z % 146097) + 1)
        = toYS (400 * (z / 146097) + (yearAux (z % 146097) + 1)) := by ring_nf
      _ = 146097 * (z / 146097) + toYS (yearAux (z % 146097) + 1) := toYS_shift _ _
      _ ≤ z := by omega
  · calc z < 146097 * (z / 146097) + toYS (yearAux (z % 146097) + 2) := by omega
      _ = toYS (400 * (z / 146097) + (yearAux (z % 146097) + 2)) := (toYS_shift _ _).symm
      _ = toYS (400 * (z / 146097) + yearAux (z % 146097) + 1 + 1) := by ring_nf

theorem yearOfDays_unique (z Y : Int) (h1 : toYS Y ≤ z) (h2 : z < toYS (Y + 1)) :
    yearOfDays z = Y := by
  have hb := yearOfDays_bracket z
  rcases lt_trichotomy (yearOfDays z) Y with h | h | h
  · have := toYS_mono (show yearOfDays z + 1 ≤ Y by omega)
    omega
  · exact h
  · have := toYS_mono (show Y + 1 ≤ yearOfDays z by omega)
    omega

/-- `1` for a leap year, `0` otherwise. -/
def leapN (y : Int) : Int := if isLeap y then 1 else 0

/-- Cumulative days before month `m` in a year (useful for `m` in 1..13);
`e` is the number of leap days (0 or 1).  Uses the standard shifted-month
(March-based) closed form, which agrees with Go's `daysBefore` table. -/
def dbm (e m : Int) : Int :=
  if m ≤ 2 then (153 * (m + 9) + 2) / 5 - 306 else (153 * (m - 3) + 2) / 5 + 59 + e

/-- Day count since March 1st for year-day `yd` (0-based, `e` leap days),
mapping January/February to the tail of the preceding March-based year. -/
def doyM (e yd : Int) : Int := if yd < 59 + e then yd + 306 else yd - 59 - e

/-- Shifted month index (0 = March .. 11 = February) of a year-day. -/
def mpOf (e yd : Int) : Int := (5 * doyM e yd + 2) / 153

/-- The month (1..12) containing the 0-based year-day `yd`. -/
def monthOfYday (e yd : Int) : Int :=
  if mpOf e yd ≤ 9 then mpOf e yd + 3 else mpOf e yd - 9

/-- Number of days in month `m` (1..12) of year `y`. -/
def daysInMonth (y m : Int) : Int := dbm (leapN y) (m + 1) - dbm (leapN y) m

theorem leapN_bounds (y : Int) : 0 ≤ leapN y ∧ leapN y ≤ 1 := by
  unfold leapN; split <;> omega

theorem daysInYear_eq (y : Int) : daysInYear y = 365 + leapN y := by
  unfold daysInYear leapN; split <;> omega

theorem dbm_one (e : Int) : dbm e 1 = 0 := by norm_num [dbm]

theorem dbm_thirteen (e : Int) : dbm e 13 = 365 + e := by norm_num [dbm]

theorem dbm_mono (e : Int) (he : 0 ≤ e) {a b : Int} (h : a ≤ b) : dbm e a ≤ dbm e b := by
  unfold dbm; split_ifs <;> omega

theorem month_bracket (e yd : Int) (he0 : 0 ≤ e) (he1 : e ≤ 1) (h0 : 0 ≤ yd)
    (h1 : yd < 365 + e) :
    1 ≤ monthOfYday e yd ∧ monthOfYday e yd ≤ 12 ∧
    dbm e (monthOfYday e yd) ≤ yd ∧ yd < dbm e (monthOfYday e yd + 1) := by
  unfold monthOfYday dbm mpOf doyM
  split_ifs <;> omega

theorem month_unique (e yd m : Int) (he0 : 0 ≤ e) (he1 : e ≤ 1) (h1 : 1 ≤ m)
    (h2 : m ≤ 12) (h3 : dbm e m ≤ yd) (h4 : yd < dbm e (m + 1)) :
    monthOfYday e yd = m := by
  unfold monthOfYday dbm mpOf doyM at *
  split_ifs at * <;> omega

theorem daysInMonth_bounds (y m : Int) (h1 : 1 ≤ m) (h2 : m ≤ 12) :
    28 ≤ daysInMonth y m ∧ daysInMonth y m ≤ 31 := by
  have he := leapN_bounds y
  unfold daysInMonth dbm
  split_ifs <;> omega

/-- Absolute day number (day 0 = 0001-01-01) of the calendar date `(y, m, d)`,
with Go `time.Date`'s month normalization and day overflow semantics. -/
def dateToDays (y m d : Int) : Int :=
  toYS (y + (m - 1) / 12) + dbm (leapN (y + (m - 1) / 12)) ((m - 1) % 12 + 1) + (d - 1)

def ydayOfDays (z : Int) : Int := z - toYS (yearOfDays z)

def monthOfDays (z : Int) : Int := monthOfYday (leapN (yearOfDays z)) (ydayOfDays z)

def dayOfDays (z : Int) : Int :=
  ydayOfDays z - dbm (leapN (yearOfDays z)) (monthOfDays z) + 1

theorem yday_bounds (z : Int) :
    0 ≤ ydayOfDays z ∧ ydayOfDays z < 365 + leapN (yearOfDays z) := by
  have hb := yearOfDays_bracket z
  have hs := toYS_succ (yearOfDays z)
  have he := daysInYear_eq (yearOfDays z)
  unfold ydayOfDays
  omega

theorem monthOfDays_bracket (z : Int) :
    1 ≤ monthOfDays z ∧ monthOfDays z ≤ 12 ∧
    dbm (leapN (yearOfDays z)) (monthOfDays z) ≤ ydayOfDays z ∧
    ydayOfDays z < dbm (leapN (yearOfDays z)) (monthOfDays z + 1) := by
  have hy := yday_bounds z
  have he := leapN_bounds (yearOfDays z)
  exact month_bracket _ _ he.1 he.2 hy.1 hy.2

theorem dayOfDays_bracket (z : Int) :
    1 ≤ dayOfDays z ∧ dayOfDays z ≤ daysInMonth (yearOfDays z) (monthOfDays z) := by
  have hm := monthOfDays_bracket z
  unfold dayOfDays daysInMonth
  omega

theorem days_roundtrip (z : Int) :
    dateToDays (yearOfDays z) (monthOfDays z) (dayOfDays z) = z := by
  have hm := monthOfDays_bracket z
  have h12 : (monthOfDays z - 1) / 12 = 0 := by omega
  have h12' : (monthOfDays z - 1) % 12 + 1 = monthOfDays z := by omega
  unfold dateToDays
  rw [h12, h12']
  simp only [add_zero]
  unfold dayOfDays ydayOfDays
  omega

theorem dateToDays_eq (y m d : Int) (h1 : 1 ≤ m) (h2 : m ≤ 12) :
    dateToDays y m d = toYS y + dbm (leapN y) m + (d - 1) := by
  have e1 : (m - 1) / 12 = 0 := by omega
  have e2 : (m - 1) % 12 + 1 = m := by omega
  unfold dateToDays
  rw [e1, e2]
  simp only [add_zero]

theorem dateToDays_valid (y m d : Int) (h1 : 1 ≤ m) (h2 : m ≤ 12) (h3 : 1 ≤ d)
    (h4 : d ≤ daysInMonth y m) :
    yearOfDays (dateToDays y m d) = y ∧ monthOfDays (dateToDays y m d) = m ∧
    dayOfDays (dateToDays y m d) = d := by
  have he := leapN_bounds y
  have hz := dateToDays_eq y m d h1 h2
  have hlo : (0 : Int) ≤ dbm (leapN y) m := by
    have := dbm_mono (leapN y) he.1 h1
    rw [dbm_one] at this; omega
  have hup : dbm (leapN y) (m + 1) ≤ 365 + leapN y := by
    have := dbm_mono (leapN y) he.1 (show m + 1 ≤ 13 by omega)
    rw [dbm_thirteen] at this; omega
  have hyd : toYS y ≤ dateToDays y m d ∧ dateToDays y m d < toYS (y + 1) := by
    rw [toYS_succ, daysInYear_eq]
    unfold daysInMonth at h4
    omega
  have hy : yearOfDays (dateToDays y m d) = y := yearOfDays_unique _ _ hyd.1 hyd.2
  have hydv : ydayOfDays (dateToDays y m d) = dbm (leapN y) m + (d - 1) := by
    unfold ydayOfDays; rw [hy]; omega
  have hmv : monthOfDays (dateToDays y m d) = m := by
    unfold monthOfDays
    rw [hy, hydv]
    refine month_unique _ _ _ he.1 he.2 h1 h2 (by omega) ?_
    unfold daysInMonth at h4
    omega
  refine ⟨hy, hmv, ?_⟩
  unfold dayOfDays
  rw [hy, hydv, hmv]
  omega

theorem dateToDays_day_succ (y m d : Int) :
    dateToDays y m (d + 1) = dateToDays y m d + 1 := by
  unfold dateToDays; ring

theorem dateToDays_month_succ (y m d : Int) (h1 : 1 ≤ m) (h2 : m ≤ 12) :
    dateToDays y (m + 1) d = dateToDays y m d + daysInMonth y m := by
  have he := leapN_bounds y
  have he' := leapN_bounds (y + 1)
  rcases lt_or_eq_of_le h2 with h12 | h12
  · rw [dateToDays_eq y m d h1 h2, dateToDays_eq y (m + 1) d (by omega) (by omega)]
    unfold daysInMonth
    omega
  · subst h12
    rw [dateToDays_eq y 12 d h1 h2]
    unfold dateToDays
    norm_num [dbm_one]
    rw [toYS_succ, daysInYear_eq]
    unfold daysInMonth
    norm_num [dbm]
    ring

theorem dateToDays_year_lt (y m d : Int) (h1 : 1 ≤ m) (h2 : m ≤ 12) :
    dateToDays y m d < dateToDays (y + 1) m d := by
  have he := leapN_bounds y
  have he' := leapN_bounds (y + 1)
  rw [dateToDays_eq y m d h1 h2, dateToDays_eq (y + 1) m d h1 h2, toYS_succ, daysInYear_eq]
  unfold dbm
  split_ifs <;> omega

/-! ## Instants: Go `time.Time` over a fixed-offset zone, as nanoseconds
since the Unix epoch. -/

def nsS : Int := 1000000000
def nsMin : Int := 60000000000
def nsHour : Int := 3600000000000
def nsDay : Int := 86400000000000

/-- `toYS 1970`: days from 0001-01-01 to the Unix epoch. -/
def epochDays : Int := 719162

def dayNum (t : Int) : Int := t / nsDay + epochDays
def tYear (t : Int) : Int := yearOfDays (dayNum t)
def tMonth (t : Int) : Int := monthOfDays (dayNum t)
def tDay (t : Int) : Int := dayOfDays (dayNum t)
def tHour (t : Int) : Int := t % nsDay / nsHour
def tMin (t : Int) : Int := t % nsHour / nsMin
def tSec (t : Int) : Int := t % nsMin / nsS
def tNsec (t : Int) : Int := t % nsS
def tWeekday (t : Int) : Int := (t / nsDay + 4) % 7

/-- Go's `time.Date y mo d h mi s ns loc` for a fixed-offset location. -/
def goDate (y mo d h mi s ns : Int) : Int :=
  (dateToDays y mo d - epochDays) * nsDay + h * nsHour + mi * nsMin + s * nsS + ns

/-- Go's `Time.AddDate`. -/
def addDate (t ys ms ds : Int) : Int :=
  goDate (tYear t + ys) (tMonth t + ms) (tDay t + ds) (tHour t) (tMin t) (tSec t) (tNsec t)

/-- Go's `Time.Truncate time.Second`. -/
def truncSec (t : Int) : Int := t - t % nsS

/-- Go's `Time.Truncate time.Minute`. -/
def truncMin (t : Int) : Int := t - t % nsMin

theorem epochDays_eq : epochDays = toYS 1970 := by norm_num [epochDays, toYS]

theorem clock_bounds (t : Int) :
    0 ≤ tHour t ∧ tHour t ≤ 23 ∧ 0 ≤ tMin t ∧ tMin t ≤ 59 ∧
    0 ≤ tSec t ∧ tSec t ≤ 59 ∧ 0 ≤ tNsec t ∧ tNsec t < 1000000000 := by
  unfold tHour tMin tSec tNsec nsDay nsHour nsMin nsS
  omega

theorem clock_recombine (t : Int) :
    (dayNum t - epochDays) * nsDay + tHour t * nsHour + tMin t * nsMin +
      tSec t * nsS + tNsec t = t := by
  unfold dayNum tHour tMin tSec tNsec nsDay nsHour nsMin nsS epochDays
  omega

theorem time_roundtrip (t : Int) :
    goDate (tYear t) (tMonth t) (tDay t) (tHour t) (tMin t) (tSec t) (tNsec t) = t := by
  unfold goDate tYear tMonth tDay
  rw [days_roundtrip]
  exact clock_recombine t

theorem goDate_fields (y m d h mi s ns : Int) (h1 : 1 ≤ m) (h2 : m ≤ 12) (h3 : 1 ≤ d)
    (h4 : d ≤ daysInMonth y m) (h5 : 0 ≤ h) (h6 : h ≤ 23) (h7 : 0 ≤ mi) (h8 : mi ≤ 59)
    (h9 : 0 ≤ s) (h10 : s ≤ 59) (h11 : 0 ≤ ns) (h12 : ns < 1000000000) :
    tYear (goDate y m d h mi s ns) = y ∧ tMonth (goDate y m d h mi s ns) = m ∧
    tDay (goDate y m d h mi s ns) = d ∧ tHour (goDate y m d h mi s ns) = h ∧
    tMin (goDate y m d h mi s ns) = mi ∧ tSec (goDate y m d h mi s ns) = s ∧
    tNsec (goDate y m d h mi s ns) = ns := by
  have hv := dateToDays_valid y m d h1 h2 h3 h4
  have hq : dayNum (goDate y m d h mi s ns) = dateToDays y m d ∧
      goDate y m d h mi s ns % nsDay = h * nsHour + mi * nsMin + s * nsS + ns := by
    unfold dayNum goDate nsDay nsHour nsMin nsS
    omega
  refine ⟨?_, ?_, ?_, ?_, ?_, ?_, ?_⟩
  · unfold tYear; rw [hq.1]; exact hv.1
  · unfold tMonth; rw [hq.1]; exact hv.2.1
  · unfold tDay; rw [hq.1]; exact hv.2.2
  all_goals
    simp only [tHour, tMin, tSec, tNsec, goDate, nsDay, nsHour, nsMin, nsS]
    omega

/-! ## The schedule (`SpecSchedule`), end-of-month bits and the day matcher -/

def minYear : Int := 1970
def maxYear : Int := 2099
def maxBits : Nat := 160

/-- `SpecSchedule` of `spec.go`: seven bit vectors (non-negative `big.Int`s,
modelled as `Nat`).  The `Location` field is modelled as a fixed-offset zone
and therefore carries no data here. -/
structure SpecSchedule where
  Second : Nat
  Minute : Nat
  Hour : Nat
  Dom : Nat
  Month : Nat
  Dow : Nat
  Year : Nat

/-- `big.Int.Bit` for a non-negative receiver: the i-th bit as 0 or 1. -/
def bit (n i : Nat) : Nat := if n.testBit i then 1 else 0

/-- `eomBits` of `spec.go` (lines 355-396), transcribed literally; `byte`
truncation is `% 256`, `uint`/`uint64` shifts are `Nat` shifts (no shift in the
source can exceed the word size). -/
def eomBits (s : SpecSchedule) (t : Int) : Nat × Nat :=
  let bDow : Nat := (bit s.Dow 0x00FE000000000000 >>> (6 * 8)) % 256
  if bit s.Dom 0x00FF000000000000 = 0 ∧ bDow = 0 then (0, 0) else
  let year := tYear t
  let leapYear : Nat := if (year % 4 = 0 ∧ year % 100 ≠ 0) ∨ year % 400 = 0 then 1 else 0
  let eom : Nat :=
    if tMonth t = 4 ∨ tMonth t = 6 ∨ tMonth t = 9 ∨ tMonth t = 11 then 30
    else if tMonth t = 2 then 28 + leapYear
    else 31
  let bDow2 : Nat :=
    if 0 < bDow then
      let lastDayOfWeek := tWeekday (goDate (tYear t) (tMonth t) (eom : Int) 0 0 0 0)
      if lastDayOfWeek = 0 then ((0xFC &&& bDow) >>> 1 ||| bDow <<< 6) % 256
      else if lastDayOfWeek = 1 then ((0xF8 &&& bDow) >>> 2 ||| bDow <<< 5) % 256
      else if lastDayOfWeek = 2 then ((0xF0 &&& bDow) >>> 3 ||| bDow <<< 4) % 256
      else if lastDayOfWeek = 3 then ((0xE0 &&& bDow) >>> 4 ||| bDow <<< 3) % 256
      else if lastDayOfWeek = 4 then ((0xC0 &&& bDow) >>> 5 ||| bDow <<< 2) % 256
      else if lastDayOfWeek = 5 then ((0x80 &&& bDow) >>> 6 ||| bDow <<< 1) % 256
      else bDow
    else bDow
  let dowBits : Nat := if 0 < bDow then bDow2 <<< (6 * 8) else 0
  (bit s.Dom 0x00FF000000000000 >>> (55 - eom), dowBits >>> (55 - eom))

/-- `dayMatches` of `spec.go` (lines 334-351), transcribed literally. -/
def dayMatches (s : SpecSchedule) (t : Int) : Bool :=
  let domMatch : Bool := s.Dom.testBit (tDay t).toNat
  let dowMatch : Bool := s.Dow.testBit (tWeekday t).toNat
  let e := eomBits s t
  let domMatch2 : Bool :=
    if 0 < e.1 then domMatch || decide (0 < 1 <<< (tDay t).toNat &&& e.1) else domMatch
  let dowMatch2 : Bool :=
    if 0 < e.2 then dowMatch || decide (0 < 1 <<< (tDay t).toNat &&& e.2) else dowMatch
  if s.Dom.testBit maxBits || s.Dow.testBit maxBits then domMatch2 && dowMatch2
  else domMatch2 || dowMatch2

/-! ## `Next` (spec.go lines 95-223): fuelled transcription.

Each `for` loop of the source is one fuelled recursive function; `goto WRAP`
is the `wrap` constructor, handled by `nextWrap`.  Fuel exhaustion returns
`none`, the same value as the sentinel return `time.Time{}`. -/

inductive LoopRes where
  | done (t : Int) (added : Bool)
  | wrap (t : Int) (added : Bool)

def nextYearLoop (s : SpecSchedule) (yearLimit : Int) : Nat → Bool → Int → Option (Int × Bool)
  | 0, _, _ => none
  | fuel + 1, added, t =>
    if tYear t < minYear ∨ ¬ s.Year.testBit (tYear t - minYear).toNat then
      let t1 := if added then t else goDate (tYear t) 1 1 0 0 0 0
      let t2 := addDate t1 1 0 0
      if yearLimit < tYear t2 ∨ maxYear < tYear t2 then none
      else nextYearLoop s yearLimit fuel true t2
    else some (t, added)

def nextMonthLoop (s : SpecSchedule) : Nat → Bool → Int → Option LoopRes
  | 0, _, _ => none
  | fuel + 1, added, t =>
    if ¬ s.Month.testBit (tMonth t).toNat then
      let t1 := if added then t else goDate (tYear t) (tMonth t) 1 0 0 0 0
      let t2 := addDate t1 0 1 0
      if tMonth t2 = 1 then some (.wrap t2 true)
      else nextMonthLoop s fuel true t2
    else some (.done t added)

def nextDayLoop (s : SpecSchedule) : Nat → Bool → Int → Option LoopRes
  | 0, _, _ => none
  | fuel + 1, added, t =>
    if ¬ dayMatches s t then
      let t1 := if added then t else goDate (tYear t) (tMonth t) (tDay t) 0 0 0 0
      let t2 := addDate t1 0 0 1
      let t3 := if tHour t2 ≠ 0 then
          (if 12 < tHour t2 then t2 + (24 - tHour t2) * nsHour else t2 + (-(tHour t2)) * nsHour)
        else t2
      if tDay t3 = 1 then some (.wrap t3 true)
      else nextDayLoop s fuel true t3
    else some (.done t added)

def nextHourLoop (s : SpecSchedule) : Nat → Bool → Int → Option LoopRes
  | 0, _, _ => none
  | fuel + 1, added, t =>
    if ¬ s.Hour.testBit (tHour t).toNat then
      let t1 := if added then t else goDate (tYear t) (tMonth t) (tDay t) (tHour t) 0 0 0
      let t2 := t1 + nsHour
      if tHour t2 = 0 then some (.wrap t2 true)
      else nextHourLoop s fuel true t2
    else some (.done t added)

def nextMinLoop (s : SpecSchedule) : Nat → Bool → Int → Option LoopRes
  | 0, _, _ => none
  | fuel + 1, added, t =>
    if ¬ s.Minute.testBit (tMin t).toNat then
      let t1 := if added then t else truncMin t
      let t2 := t1 + nsMin
      if tMin t2 = 0 then some (.wrap t2 true)
      else nextMinLoop s fuel true t2
    else some (.done t added)

def nextSecLoop (s : SpecSchedule) : Nat → Bool → Int → Option LoopRes
  | 0, _, _ => none
  | fuel + 1, added, t =>
    if ¬ s.Second.testBit (tSec t).toNat then
      let t1 := if added then t else truncSec t
      let t2 := t1 + nsS
      if tSec t2 = 0 then some (.wrap t2 true)
      else nextSecLoop s fuel true t2
    else some (.done t added)

def nextWrap (s : SpecSchedule) (yearLimit : Int) : Nat → Bool → Int → Option Int
  | 0, _, _ => none
  | fuel + 1, added, t =>
    if yearLimit < tYear t ∨ maxYear < tYear t then none
    else match nextYearLoop s yearLimit (fuel + 1) added t with
    | none => none
    | some (t1, a1) =>
      match nextMonthLoop s (fuel + 1) a1 t1 with
      | none => none
      | some (.wrap t2 a2) => nextWrap s yearLimit fuel a2 t2
      | some (.done t2 a2) =>
        match nextDayLoop s (fuel + 1) a2 t2 with
        | none => none
        | some (.wrap t3 a3) => nextWrap s yearLimit fuel a3 t3
        | some (.done t3 a3) =>
          match nextHourLoop s (fuel + 1) a3 t3 with
          | none => none
          | some (.wrap t4 a4) => nextWrap s yearLimit fuel a4 t4
          | some (.done t4 a4) =>
            match nextMinLoop s (fuel + 1) a4 t4 with
            | none => none
            | some (.wrap t5 a5) => nextWrap s yearLimit fuel a5 t5
            | some (.done t5 a5) =>
              match nextSecLoop s (fuel + 1) a5 t5 with
              | none => none
              | some (.wrap t6 a6) => nextWrap s yearLimit fuel a6 t6
              | some (.done t6 _) => some t6

def searchFuel : Nat := 1000000000

/-- `(*SpecSchedule).Next` of `spec.go`: round up to the next whole second,
then search with a five-year limit.  `none` is the sentinel zero time. -/
def Next (s : SpecSchedule) (t : Int) : Option Int :=
  let t1 := t + (nsS - t % nsS)
  nextWrap s (tYear t1 + 5) searchFuel false t1

/-! ## `Latest` (spec.go lines 228-330): fuelled transcription. -/

inductive LatRes where
  | done (t : Int)
  | wrap (t : Int)

def latYearLoop (s : SpecSchedule) (yearLimit : Int) : Nat → Int → Option Int
  | 0, _ => none
  | fuel + 1, t =>
    if maxYear < tYear t ∨ ¬ s.Year.testBit (tYear t - minYear).toNat then
      let t2 := goDate (tYear t) 1 1 0 0 0 0 - nsS
      if tYear t2 < yearLimit ∨ tYear t2 < minYear then none
      else latYearLoop s yearLimit fuel t2
    else some t

def latMonthLoop (s : SpecSchedule) : Nat → Int → Option LatRes
  | 0, _ => none
  | fuel + 1, t =>
    if ¬ s.Month.testBit (tMonth t).toNat then
      let t2 := goDate (tYear t) (tMonth t) 1 0 0 0 0 - nsS
      if tMonth t2 = 12 then some (.wrap t2)
      else latMonthLoop s fuel t2
    else some (.done t)

def latDayLoop (s : SpecSchedule) : Nat → Int → Option LatRes
  | 0, _ => none
  | fuel + 1, t =>
    if ¬ dayMatches s t then
      let needWrap : Bool := tDay t = 1
      let t2 := goDate (tYear t) (tMonth t) (tDay t) 0 0 0 0 - nsS
      if needWrap then some (.wrap t2)
      else latDayLoop s fuel t2
    else some (.done t)

def latHourLoop (s : SpecSchedule) : Nat → Int → Option LatRes
  | 0, _ => none
  | fuel + 1, t =>
    if ¬ s.Hour.testBit (tHour t).toNat then
      let needWrap : Bool := tHour t = 0
      let t2 := goDate (tYear t) (tMonth t) (tDay t) (tHour t) 0 0 0 - nsS
      if needWrap then some (.wrap t2)
      else latHourLoop s fuel t2
    else some (.done t)

def latMinLoop (s : SpecSchedule) : Nat → Int → Option LatRes
  | 0, _ => none
  | fuel + 1, t =>
    if ¬ s.Minute.testBit (tMin t).toNat then
      let needWrap : Bool := tMin t = 0
      let t2 := truncMin t - nsS
      if needWrap then some (.wrap t2)
      else latMinLoop s fuel t2
    else some (.done t)

def latSecLoop (s : SpecSchedule) : Nat → Int → Option LatRes
  | 0, _ => none
  | fuel + 1, t =>
    if ¬ s.Second.testBit (tSec t).toNat then
      let needWrap : Bool := tSec t = 0
      let t2 := truncSec t - nsS
      if needWrap then some (.wrap t2)
      else latSecLoop s fuel t2
    else some (.done t)

def latestWrap (s : SpecSchedule) (yearLimit : Int) : Nat → Int → Option Int
  | 0, _ => none
  | fuel + 1, t =>
    if tYear t < yearLimit ∨ tYear t < minYear then none
    else match latYearLoop s yearLimit (fuel + 1) t with
    | none => none
    | some t1 =>
      match latMonthLoop s (fuel + 1) t1 with
      | none => none
      | some (.wrap t2) => latestWrap s yearLimit fuel t2
      | some (.done t2) =>
        match latDayLoop s (fuel + 1) t2 with
        | none => none
        | some (.wrap t3) => latestWrap s yearLimit fuel t3
        | some (.done t3) =>
          match latHourLoop s (fuel + 1) t3 with
          | none => none
          | some (.wrap t4) => latestWrap s yearLimit fuel t4
          | some (.done t4) =>
            match latMinLoop s (fuel + 1) t4 with
            | none => none
            | some (.wrap t5) => latestWrap s yearLimit fuel t5
            | some (.done t5) =>
              match latSecLoop s (fuel + 1) t5 with
              | none => none
              | some (.wrap t6) => latestWrap s yearLimit fuel t6
              | some (.done t6) => some t6

/-- `(*SpecSchedule).Latest` of `spec.go`: truncate to the whole second, then
search backward with a five-year limit.  `none` is the sentinel zero time. -/
def Latest (s : SpecSchedule) (t : Int) : Option Int :=
  let t1 := truncSec t
  latestWrap s (tYear t1 - 5) searchFuel t1

/-! ## Helper lemmas about instants -/

theorem tMonth_range (t : Int) : 1 ≤ tMonth t ∧ tMonth t ≤ 12 := by
  have := monthOfDays_bracket (dayNum t)
  unfold tMonth
  omega

theorem tDay_range (t : Int) :
    1 ≤ tDay t ∧ tDay t ≤ daysInMonth (tYear t) (tMonth t) := by
  have := dayOfDays_bracket (dayNum t)
  unfold tDay tYear tMonth
  omega

theorem tWeekday_range (t : Int) : 0 ≤ tWeekday t ∧ tWeekday t ≤ 6 := by
  unfold tWeekday
  omega

theorem tDay_le_31 (t : Int) : tDay t ≤ 31 := by
  have h1 := tDay_range t
  have h2 := tMonth_range t
  have h3 := daysInMonth_bounds (tYear t) (tMonth t) h2.1 h2.2
  omega

theorem sameDay_fields {u v : Int} (h : dayNum u = dayNum v) :
    tYear u = tYear v ∧ tMonth u = tMonth v ∧ tDay u = tDay v ∧
    tWeekday u = tWeekday v := by
  refine ⟨?_, ?_, ?_, ?_⟩
  · unfold tYear; rw [h]
  · unfold tMonth; rw [h]
  · unfold tDay; rw [h]
  · unfold tWeekday at *
    unfold dayNum at h
    omega

theorem eomBits_congr (s : SpecSchedule) {u v : Int} (h : dayNum u = dayNum v) :
    eomBits s u = eomBits s v := by
  obtain ⟨h1, h2, h3, h4⟩ := sameDay_fields h
  unfold eomBits
  rw [h1, h2]

theorem dayMatches_congr (s : SpecSchedule) {u v : Int} (h : dayNum u = dayNum v) :
    dayMatches s u = dayMatches s v := by
  obtain ⟨h1, h2, h3, h4⟩ := sameDay_fields h
  unfold dayMatches
  rw [h3, h4, eomBits_congr s h]

theorem clock_decomp (t : Int) :
    tHour t * nsHour + tMin t * nsMin + tSec t * nsS + tNsec t = t % nsDay ∧
    tMin t * nsMin + tSec t * nsS + tNsec t = t % nsHour ∧
    tSec t * nsS + tNsec t = t % nsMin := by
  unfold tHour tMin tSec tNsec nsDay nsHour nsMin nsS
  omega

theorem goDate_split (y m d h mi s ns : Int) :
    goDate y m d h mi s ns =
      goDate y m d 0 0 0 0 + h * nsHour + mi * nsMin + s * nsS + ns := by
  unfold goDate; ring

theorem dayStart_eq (t : Int) :
    goDate (tYear t) (tMonth t) (tDay t) 0 0 0 0 = t - t % nsDay := by
  have h1 := time_roundtrip t
  rw [goDate_split] at h1
  have h2 := (clock_decomp t).1
  omega

theorem hourStart_eq (t : Int) :
    goDate (tYear t) (tMonth t) (tDay t) (tHour t) 0 0 0 = t - t % nsHour := by
  have h1 := time_roundtrip t
  have h0 : goDate (tYear t) (tMonth t) (tDay t) (tHour t) (tMin t) (tSec t) (tNsec t) =
      goDate (tYear t) (tMonth t) (tDay t) (tHour t) 0 0 0 +
        tMin t * nsMin + tSec t * nsS + tNsec t := by
    unfold goDate; ring
  rw [h0] at h1
  have h2 := (clock_decomp t).2.1
  omega

theorem dayNum_local (t v : Int) (h1 : t - t % nsDay ≤ v) (h2 : v < t - t % nsDay + nsDay) :
    dayNum v = dayNum t := by
  unfold dayNum nsDay at *
  omega

/-- `goDate` at the first of a month is a whole number of days. -/
theorem goDate_monthStart (y m : Int) :
    goDate y m 1 0 0 0 0 = (dateToDays y m 1 - epochDays) * nsDay := by
  unfold goDate; ring

theorem yearStart_days (y : Int) : dateToDays y 1 1 = toYS y := by
  rw [dateToDays_eq y 1 1 (by norm_num) (by norm_num), dbm_one]
  ring

theorem monthStart_le (t : Int) :
    goDate (tYear t) (tMonth t) 1 0 0 0 0 ≤ t ∧
    t < goDate (tYear t) (tMonth t) 1 0 0 0 0 +
      daysInMonth (tYear t) (tMonth t) * nsDay := by
  have hm := monthOfDays_bracket (dayNum t)
  unfold tYear tMonth
  rw [goDate_monthStart, dateToDays_eq _ _ _ hm.1 hm.2.1]
  unfold daysInMonth ydayOfDays at *
  unfold dayNum epochDays nsDay at *
  omega

theorem month_local_unique (y m v : Int) (h1 : 1 ≤ m) (h2 : m ≤ 12)
    (hlo : goDate y m 1 0 0 0 0 ≤ v)
    (hhi : v < goDate y m 1 0 0 0 0 + daysInMonth y m * nsDay) :
    tYear v = y ∧ tMonth v = m := by
  have he := leapN_bounds y
  have hds : dateToDays y m 1 = toYS y + dbm (leapN y) m := by
    rw [dateToDays_eq _ _ _ h1 h2]; ring
  have hdimpos := daysInMonth_bounds y m h1 h2
  have hzlo : dateToDays y m 1 ≤ dayNum v ∧
      dayNum v < dateToDays y m 1 + daysInMonth y m := by
    rw [goDate_monthStart] at hlo hhi
    unfold dayNum nsDay at *
    omega
  have hup : dbm (leapN y) (m + 1) ≤ 365 + leapN y := by
    have := dbm_mono (leapN y) he.1 (show m + 1 ≤ 13 by omega)
    rw [dbm_thirteen] at this; omega
  have hlo0 : (0 : Int) ≤ dbm (leapN y) m := by
    have := dbm_mono (leapN y) he.1 h1
    rw [dbm_one] at this; omega
  have hdim : daysInMonth y m = dbm (leapN y) (m + 1) - dbm (leapN y) m := rfl
  have hy : yearOfDays (dayNum v) = y := by
    apply yearOfDays_unique
    · omega
    · rw [toYS_succ, daysInYear_eq]; omega
  have hyd : ydayOfDays (dayNum v) = dayNum v - toYS y := by
    unfold ydayOfDays; rw [hy]
  have hmv : monthOfDays (dayNum v) = m := by
    unfold monthOfDays
    rw [hy, hyd]
    exact month_unique _ _ _ he.1 he.2 h1 h2 (by omega) (by omega)
  exact ⟨hy, hmv⟩

theorem yearStart_le (t : Int) :
    goDate (tYear t) 1 1 0 0 0 0 ≤ t ∧
    t < goDate (tYear t) 1 1 0 0 0 0 + daysInYear (tYear t) * nsDay := by
  have hb := yearOfDays_bracket (dayNum t)
  have hs := toYS_succ (yearOfDays (dayNum t))
  have hyt : tYear t = yearOfDays (dayNum t) := rfl
  rw [goDate_monthStart, yearStart_days, hyt]
  have hday : t = (dayNum t - epochDays) * nsDay + t % nsDay ∧ 0 ≤ t % nsDay ∧
      t % nsDay < nsDay := by
    unfold dayNum nsDay; omega
  have hpos := daysInYear_bounds (yearOfDays (dayNum t))
  unfold nsDay at *
  constructor
  · nlinarith [hb.1, hday.1, hday.2.1]
  · nlinarith [hb.2, hday.1, hday.2.2]

theorem year_local_unique (y v : Int) (hlo : goDate y 1 1 0 0 0 0 ≤ v)
    (hhi : v < goDate y 1 1 0 0 0 0 + daysInYear y * nsDay) : tYear v = y := by
  have hzlo : toYS y ≤ dayNum v ∧ dayNum v < toYS y + daysInYear y := by
    rw [goDate_monthStart, yearStart_days] at hlo hhi
    have := daysInYear_bounds y
    unfold dayNum nsDay at *
    omega
  unfold tYear
  apply yearOfDays_unique
  · omega
  · rw [toYS_succ]; omega

theorem goDate_day_succ (y m d h mi s ns : Int) :
    goDate y m (d + 1) h mi s ns = goDate y m d h mi s ns + nsDay := by
  unfold goDate; rw [dateToDays_day_succ]; ring

theorem addDate_day_one (t : Int) : addDate t 0 0 1 = t + nsDay := by
  unfold addDate
  simp only [add_zero]
  rw [goDate_day_succ, time_roundtrip]

theorem goDate_month_succ (y m d h mi s ns : Int) (h1 : 1 ≤ m) (h2 : m ≤ 12) :
    goDate y (m + 1) d h mi s ns = goDate y m d h mi s ns + daysInMonth y m * nsDay := by
  unfold goDate; rw [dateToDays_month_succ y m d h1 h2]; ring

theorem addDate_month_one (t : Int) :
    addDate t 0 1 0 = t + daysInMonth (tYear t) (tMonth t) * nsDay := by
  have hm := tMonth_range t
  unfold addDate
  simp only [add_zero]
  rw [goDate_month_succ _ _ _ _ _ _ _ hm.1 hm.2, time_roundtrip]

theorem goDate_year_succ_gt (y m d h mi s ns : Int) (h1 : 1 ≤ m) (h2 : m ≤ 12) :
    goDate y m d h mi s ns < goDate (y + 1) m d h mi s ns := by
  have := dateToDays_year_lt y m d h1 h2
  unfold goDate nsDay
  omega

theorem addDate_year_one_gt (t : Int) : t < addDate t 1 0 0 := by
  have hm := tMonth_range t
  have h := goDate_year_succ_gt (tYear t) (tMonth t) (tDay t) (tHour t) (tMin t) (tSec t)
    (tNsec t) hm.1 hm.2
  rw [time_roundtrip] at h
  unfold addDate
  simp only [add_zero]
  exact h

theorem addDate_on_yearStart (y : Int) :
    addDate (goDate y 1 1 0 0 0 0) 1 0 0 = goDate (y + 1) 1 1 0 0 0 0 := by
  have hd := daysInMonth_bounds y 1 (by norm_num) (by norm_num)
  have hf := goDate_fields y 1 1 0 0 0 0 (by norm_num) (by norm_num) (by norm_num)
    (by omega) (by norm_num) (by norm_num) (by norm_num) (by norm_num) (by norm_num)
    (by norm_num) (by norm_num) (by norm_num)
  obtain ⟨f1, f2, f3, f4, f5, f6, f7⟩ := hf
  unfold addDate
  rw [f1, f2, f3, f4, f5, f6, f7]
  norm_num

theorem addDate_on_monthStart (y m : Int) (h1 : 1 ≤ m) (h2 : m ≤ 12) :
    addDate (goDate y m 1 0 0 0 0) 0 1 0 = goDate y (m + 1) 1 0 0 0 0 := by
  have hd := daysInMonth_bounds y m h1 h2
  have hf := goDate_fields y m 1 0 0 0 0 h1 h2 (by norm_num) (by omega) (by norm_num)
    (by norm_num) (by norm_num) (by norm_num) (by norm_num) (by norm_num) (by norm_num)
    (by norm_num)
  obtain ⟨f1, f2, f3, f4, f5, f6, f7⟩ := hf
  unfold addDate
  rw [f1, f2, f3, f4, f5, f6, f7]
  norm_num

theorem dateToDays_day_base (y m d : Int) :
    dateToDays y m d = dateToDays y m 1 + (d - 1) := by
  unfold dateToDays; ring

theorem dateToDays_dec_jan (y : Int) : dateToDays y 13 1 = dateToDays (y + 1) 1 1 := by
  have h1 := dateToDays_month_succ y 12 1 (by norm_num) (by norm_num)
  norm_num at h1
  have h2 := dateToDays_eq y 12 1 (by norm_num) (by norm_num)
  have h3 := yearStart_days (y + 1)
  have h4 := toYS_succ y
  have h5 := daysInYear_eq y
  have hdim : daysInMonth y 12 = dbm (leapN y) 13 - dbm (leapN y) 12 := rfl
  have h6 := dbm_thirteen (leapN y)
  omega

theorem days_roundtrip_t (t : Int) :
    dateToDays (tYear t) (tMonth t) (tDay t) = dayNum t := by
  unfold tYear tMonth tDay
  exact days_roundtrip (dayNum t)

theorem dayNum_succ_fields (z : Int) :
    (yearOfDays (z + 1) = yearOfDays z ∧ monthOfDays (z + 1) = monthOfDays z ∧
      dayOfDays (z + 1) = dayOfDays z + 1) ∨
    (dayOfDays (z + 1) = 1 ∧
      (yearOfDays (z + 1) = yearOfDays z ∧ monthOfDays (z + 1) = monthOfDays z + 1 ∨
       yearOfDays (z + 1) = yearOfDays z + 1 ∧ monthOfDays (z + 1) = 1 ∧
         monthOfDays z = 12)) := by
  have hm := monthOfDays_bracket z
  have hd := dayOfDays_bracket z
  have hrt := days_roundtrip z
  rcases lt_or_eq_of_le hd.2 with hlt | heq
  · left
    have hz : z + 1 = dateToDays (yearOfDays z) (monthOfDays z) (dayOfDays z + 1) := by
      rw [dateToDays_day_succ, hrt]
    have hv := dateToDays_valid (yearOfDays z) (monthOfDays z) (dayOfDays z + 1)
      hm.1 hm.2.1 (by omega) (by omega)
    rw [hz]
    exact ⟨hv.1, hv.2.1, by omega⟩
  · right
    have hz : z + 1 = dateToDays (yearOfDays z) (monthOfDays z + 1) 1 := by
      rw [dateToDays_month_succ _ _ _ hm.1 hm.2.1]
      rw [dateToDays_day_base (yearOfDays z) (monthOfDays z) (dayOfDays z)] at hrt
      omega
    rcases lt_or_eq_of_le hm.2.1 with hlt12 | heq12
    · have hdim := daysInMonth_bounds (yearOfDays z) (monthOfDays z + 1) (by omega) (by omega)
      have hv := dateToDays_valid (yearOfDays z) (monthOfDays z + 1) 1
        (by omega) (by omega) (by norm_num) (by omega)
      rw [hz]
      exact ⟨hv.2.2, Or.inl ⟨hv.1, by omega⟩⟩
    · rw [heq12] at hz
      norm_num at hz
      have hz2 : z + 1 = dateToDays (yearOfDays z + 1) 1 1 :=
        hz.trans (dateToDays_dec_jan (yearOfDays z))
      have hdim := daysInMonth_bounds (yearOfDays z + 1) 1 (by norm_num) (by norm_num)
      have hv := dateToDays_valid (yearOfDays z + 1) 1 1
        (by norm_num) (by norm_num) (by norm_num) (by omega)
      rw [hz2]
      exact ⟨hv.2.2, Or.inr ⟨by omega, hv.2.1, by omega⟩⟩

theorem tDay_succ_fields {u v : Int} (h : dayNum v = dayNum u + 1) :
    (tYear v = tYear u ∧ tMonth v = tMonth u ∧ tDay v = tDay u + 1) ∨
    (tDay v = 1 ∧
      (tYear v = tYear u ∧ tMonth v = tMonth u + 1 ∨
       tYear v = tYear u + 1 ∧ tMonth v = 1 ∧ tMonth u = 12)) := by
  unfold tYear tMonth tDay
  rw [h]
  exact dayNum_succ_fields (dayNum u)

/-! ## Field matching and search invariants -/

/-- The year of `v` is representable and its `Year` bit is set. -/
def yearOk (s : SpecSchedule) (v : Int) : Prop :=
  minYear ≤ tYear v ∧ s.Year.testBit (tYear v - minYear).toNat

/-- `v` satisfies every field of the schedule (the conditions the search's
loops enforce at a returned instant). -/
def matchesF (s : SpecSchedule) (v : Int) : Prop :=
  yearOk s v ∧ s.Month.testBit (tMonth v).toNat ∧ dayMatches s v = true ∧
  s.Hour.testBit (tHour v).toNat ∧ s.Minute.testBit (tMin v).toNat ∧
  s.Second.testBit (tSec v).toNat

/-- No whole-second instant in `[a, b)` matches the schedule. -/
def NoMatchSeg (s : SpecSchedule) (a b : Int) : Prop :=
  ∀ v, a ≤ v → v < b → v % nsS = 0 → ¬ matchesF s v

theorem NoMatchSeg_trans {s : SpecSchedule} {a b c : Int} (h1 : NoMatchSeg s a b)
    (h2 : NoMatchSeg s b c) : NoMatchSeg s a c := by
  intro v hv1 hv2 hv3
  rcases lt_or_le v b with h | h
  · exact h1 v hv1 h hv3
  · exact h2 v h hv2 hv3

theorem NoMatchSeg_nil {s : SpecSchedule} {a b : Int} (h : b ≤ a) : NoMatchSeg s a b := by
  intro v hv1 hv2
  omega

/-- The invariant re-established at every arrival at the `WRAP` label with
`added = true`: the candidate is minute-aligned, and every coarser field
either still satisfies its bit (it was checked and has not changed since) or
the candidate sits at that field's start (the field just rolled over). -/
def WrapInv (s : SpecSchedule) (t : Int) : Prop :=
  t % nsMin = 0 ∧
  (s.Hour.testBit (tHour t).toNat ∨ t % nsHour = 0) ∧
  (dayMatches s t = true ∨ t % nsDay = 0) ∧
  (s.Month.testBit (tMonth t).toNat ∨ (tDay t = 1 ∧ t % nsDay = 0)) ∧
  (yearOk s t ∨ (tMonth t = 1 ∧ tDay t = 1 ∧ t % nsDay = 0))

/-! ## Specifications of the `Next` loops -/

theorem nextSecLoop_spec (s : SpecSchedule) : ∀ fuel added t r,
    nextSecLoop s fuel added t = some r → t % nsS = 0 →
    (∀ u a2, r = LoopRes.done u a2 →
      s.Second.testBit (tSec u).toNat ∧ t ≤ u ∧ u % nsS = 0 ∧ tMin u = tMin t ∧
      tHour u = tHour t ∧ dayNum u = dayNum t ∧ NoMatchSeg s t u) ∧
    (∀ u a2, r = LoopRes.wrap u a2 →
      t < u ∧ u % nsMin = 0 ∧ NoMatchSeg s t u ∧
      (tMin u = tMin t + 1 ∧ tHour u = tHour t ∧ dayNum u = dayNum t ∨
       u % nsHour = 0 ∧ (tHour u = tHour t + 1 ∧ dayNum u = dayNum t ∨
         u % nsDay = 0 ∧ dayNum u = dayNum t + 1))) := by
  intro fuel
  induction fuel with
  | zero => intro added t r h; simp [nextSecLoop] at h
  | succ f ih =>
    intro added t r h hal
    simp only [nextSecLoop] at h
    by_cases hbit : s.Second.testBit (tSec t).toNat
    · rw [if_neg (by simp [hbit])] at h
      refine ⟨?_, ?_⟩
      · intro u a2 hr
        rw [hr] at h
        injection h with h'
        injection h' with hu ha
        subst hu
        exact ⟨hbit, le_refl t, hal, rfl, rfl, rfl, NoMatchSeg_nil (le_refl t)⟩
      · intro u a2 hr
        rw [hr] at h
        exact absurd h (by simp)
    · rw [if_pos (by simp [hbit])] at h
      have ht1 : (if added then t else truncSec t) = t := by
        cases added <;> simp [truncSec, hal]
      rw [ht1] at h
      have hseg1 : NoMatchSeg s t (t + nsS) := by
        intro v hv1 hv2 hv3
        have hveq : v = t := by unfold nsS at *; omega
        subst hveq
        intro hm
        exact hbit hm.2.2.2.2.2
      split_ifs at h with hw
      · refine ⟨?_, ?_⟩
        · intro u a2 hr
          rw [hr] at h
          exact absurd h (by simp)
        · intro u a2 hr
          rw [hr] at h
          injection h with h'
          injection h' with hu ha
          subst hu
          refine ⟨by unfold nsS; omega, ?_, hseg1, ?_⟩
          · unfold tSec at hw
            unfold nsS nsMin at *
            omega
          · unfold tSec at hw
            unfold tSec tMin tHour dayNum nsS nsMin nsHour nsDay at *
            omega
      · have hstep : tSec (t + nsS) ≠ 0 →
            tMin (t + nsS) = tMin t ∧ tHour (t + nsS) = tHour t ∧
            dayNum (t + nsS) = dayNum t ∧ (t + nsS) % nsS = 0 := by
          unfold tSec tMin tHour dayNum nsS nsMin nsHour nsDay at *
          omega
        obtain ⟨hs1, hs2, hs3, hs4⟩ := hstep hw
        have ih' := ih true (t + nsS) r h hs4
        refine ⟨?_, ?_⟩
        · intro u a2 hr
          obtain ⟨c1, c2, c3, c4, c5, c6, c7⟩ := ih'.1 u a2 hr
          refine ⟨c1, by unfold nsS at *; omega, c3, by omega, by omega, by omega,
            NoMatchSeg_trans hseg1 c7⟩
        · intro u a2 hr
          obtain ⟨c1, c2, c3, c4⟩ := ih'.2 u a2 hr
          refine ⟨by unfold nsS at *; omega, c2, NoMatchSeg_trans hseg1 c3, by omega⟩

theorem nextMinLoop_spec (s : SpecSchedule) : ∀ fuel added t r,
    nextMinLoop s fuel added t = some r → t % nsS = 0 →
    (added = true → t % nsMin = 0) →
    (∀ u a2, r = LoopRes.done u a2 →
      s.Minute.testBit (tMin u).toNat ∧ t ≤ u ∧ u % nsS = 0 ∧
      tHour u = tHour t ∧ dayNum u = dayNum t ∧ NoMatchSeg s t u ∧
      (u = t ∧ a2 = added ∨ u % nsMin = 0 ∧ a2 = true)) ∧
    (∀ u a2, r = LoopRes.wrap u a2 →
      t < u ∧ u % nsHour = 0 ∧ NoMatchSeg s t u ∧
      (tHour u = tHour t + 1 ∧ dayNum u = dayNum t ∨
       u % nsDay = 0 ∧ dayNum u = dayNum t + 1)) := by
  intro fuel
  induction fuel with
  | zero => intro added t r h; simp [nextMinLoop] at h
  | succ f ih =>
    intro added t r h hal hpre
    simp only [nextMinLoop] at h
    by_cases hbit : s.Minute.testBit (tMin t).toNat
    · rw [if_neg (by simp [hbit])] at h
      refine ⟨?_, ?_⟩
      · intro u a2 hr
        rw [hr] at h
        injection h with h'
        injection h' with hu ha
        subst hu
        exact ⟨hbit, le_refl t, hal, rfl, rfl, NoMatchSeg_nil (le_refl t),
          Or.inl ⟨rfl, ha.symm⟩⟩
      · intro u a2 hr
        rw [hr] at h
        exact absurd h (by simp)
    · rw [if_pos (by simp [hbit])] at h
      have ht1 : (if added then t else truncMin t) = truncMin t := by
        cases added
        · rfl
        · simp [truncMin, hpre rfl]
      rw [ht1] at h
      have hseg1 : NoMatchSeg s t (truncMin t + nsMin) := by
        intro v hv1 hv2 hv3 hm
        apply hbit
        have heq : tMin v = tMin t := by
          unfold truncMin tMin nsMin nsHour at *
          omega
        rw [← heq]
        exact hm.2.2.2.2.1
      split_ifs at h with hw
      · refine ⟨?_, ?_⟩
        · intro u a2 hr
          rw [hr] at h
          exact absurd h (by simp)
        · intro u a2 hr
          rw [hr] at h
          injection h with h'
          injection h' with hu ha
          subst hu
          refine ⟨?_, ?_, hseg1, ?_⟩ <;>
          · unfold truncMin tMin tHour dayNum nsS nsMin nsHour nsDay at *
            omega
      · have hs4 : (truncMin t + nsMin) % nsS = 0 ∧ (truncMin t + nsMin) % nsMin = 0 ∧
            tMin (truncMin t + nsMin) = tMin t + 1 ∧
            tHour (truncMin t + nsMin) = tHour t ∧
            dayNum (truncMin t + nsMin) = dayNum t ∧ t < truncMin t + nsMin := by
          unfold truncMin tMin tHour dayNum nsS nsMin nsHour nsDay at *
          omega
        have ih' := ih true (truncMin t + nsMin) r h hs4.1 (fun _ => hs4.2.1)
        refine ⟨?_, ?_⟩
        · intro u a2 hr
          obtain ⟨c1, c2, c3, c4, c5, c6, c7⟩ := ih'.1 u a2 hr
          refine ⟨c1, by omega, c3, by omega, by omega, NoMatchSeg_trans hseg1 c6, ?_⟩
          rcases c7 with ⟨hu, ha⟩ | ⟨hu, ha⟩
          · exact Or.inr ⟨by rw [hu]; exact hs4.2.1, ha⟩
          · exact Or.inr ⟨hu, ha⟩
        · intro u a2 hr
          obtain ⟨c1, c2, c3, c4⟩ := ih'.2 u a2 hr
          exact ⟨by omega, c2, NoMatchSeg_trans hseg1 c3, by omega⟩

theorem nextHourLoop_spec (s : SpecSchedule) : ∀ fuel added t r,
    nextHourLoop s fuel added t = some r → t % nsS = 0 →
    (added = true → s.Hour.testBit (tHour t).toNat ∨ t % nsHour = 0) →
    (∀ u a2, r = LoopRes.done u a2 →
      s.Hour.testBit (tHour u).toNat ∧ t ≤ u ∧ u % nsS = 0 ∧
      dayNum u = dayNum t ∧ NoMatchSeg s t u ∧
      (u = t ∧ a2 = added ∨ u % nsHour = 0 ∧ a2 = true)) ∧
    (∀ u a2, r = LoopRes.wrap u a2 →
      t < u ∧ u % nsDay = 0 ∧ NoMatchSeg s t u ∧ dayNum u = dayNum t + 1) := by
  intro fuel
  induction fuel with
  | zero => intro added t r h; simp [nextHourLoop] at h
  | succ f ih =>
    intro added t r h hal hpre
    simp only [nextHourLoop] at h
    by_cases hbit : s.Hour.testBit (tHour t).toNat
    · rw [if_neg (by simp [hbit])] at h
      refine ⟨?_, ?_⟩
      · intro u a2 hr
        rw [hr] at h
        injection h with h'
        injection h' with hu ha
        subst hu
        exact ⟨hbit, le_refl t, hal, rfl, NoMatchSeg_nil (le_refl t),
          Or.inl ⟨rfl, ha.symm⟩⟩
      · intro u a2 hr
        rw [hr] at h
        exact absurd h (by simp)
    · rw [if_pos (by simp [hbit])] at h
      have ht1 : (if added then t
          else goDate (tYear t) (tMonth t) (tDay t) (tHour t) 0 0 0) = t - t % nsHour := by
        cases added
        · simp [hourStart_eq]
        · simp
          rcases hpre rfl with hc | hc
          · exact absurd hc hbit
          · omega
      rw [ht1] at h
      have hseg1 : NoMatchSeg s t (t - t % nsHour + nsHour) := by
        intro v hv1 hv2 hv3 hm
        apply hbit
        have heq : tHour v = tHour t := by
          unfold tHour nsHour nsDay at *
          omega
        rw [← heq]
        exact hm.2.2.2.1
      split_ifs at h with hw
      · refine ⟨?_, ?_⟩
        · intro u a2 hr
          rw [hr] at h
          exact absurd h (by simp)
        · intro u a2 hr
          rw [hr] at h
          injection h with h'
          injection h' with hu ha
          subst hu
          refine ⟨?_, ?_, hseg1, ?_⟩ <;>
          · unfold tHour dayNum nsS nsHour nsDay at *
            omega
      · have hs4 : (t - t % nsHour + nsHour) % nsS = 0 ∧
            (t - t % nsHour + nsHour) % nsHour = 0 ∧
            tHour (t - t % nsHour + nsHour) = tHour t + 1 ∧
            dayNum (t - t % nsHour + nsHour) = dayNum t ∧
            t < t - t % nsHour + nsHour := by
          unfold tHour dayNum nsS nsHour nsDay at *
          omega
        have ih' := ih true (t - t % nsHour + nsHour) r h hs4.1 (fun _ => Or.inr hs4.2.1)
        refine ⟨?_, ?_⟩
        · intro u a2 hr
          obtain ⟨c1, c2, c3, c4, c5, c6⟩ := ih'.1 u a2 hr
          refine ⟨c1, by omega, c3, by omega, NoMatchSeg_trans hseg1 c5, ?_⟩
          rcases c6 with ⟨hu, ha⟩ | ⟨hu, ha⟩
          · exact Or.inr ⟨by rw [hu]; exact hs4.2.1, ha⟩
          · exact Or.inr ⟨hu, ha⟩
        · intro u a2 hr
          obtain ⟨c1, c2, c3, c4⟩ := ih'.2 u a2 hr
          exact ⟨by omega, c2, NoMatchSeg_trans hseg1 c3, by omega⟩

theorem nextDayLoop_spec (s : SpecSchedule) : ∀ fuel added t r,
    nextDayLoop s fuel added t = some r → t % nsS = 0 →
    (added = true → dayMatches s t = true ∨ t % nsDay = 0) →
    (∀ u a2, r = LoopRes.done u a2 →
      dayMatches s u = true ∧ t ≤ u ∧ u % nsS = 0 ∧
      tYear u = tYear t ∧ tMonth u = tMonth t ∧ NoMatchSeg s t u ∧
      (u = t ∧ a2 = added ∨ u % nsDay = 0 ∧ a2 = true)) ∧
    (∀ u a2, r = LoopRes.wrap u a2 →
      t < u ∧ u % nsDay = 0 ∧ tDay u = 1 ∧ NoMatchSeg s t u ∧
      (tYear u = tYear t ∧ tMonth u = tMonth t + 1 ∨
       tYear u = tYear t + 1 ∧ tMonth u = 1 ∧ tMonth t = 12)) := by
  intro fuel
  induction fuel with
  | zero => intro added t r h; simp [nextDayLoop] at h
  | succ f ih =>
    intro added t r h hal hpre
    simp only [nextDayLoop] at h
    by_cases hbit : dayMatches s t = true
    · rw [if_neg (by simp [hbit])] at h
      refine ⟨?_, ?_⟩
      · intro u a2 hr
        rw [hr] at h
        injection h with h'
        injection h' with hu ha
        subst hu
        exact ⟨hbit, le_refl t, hal, rfl, rfl, NoMatchSeg_nil (le_refl t),
          Or.inl ⟨rfl, ha.symm⟩⟩
      · intro u a2 hr
        rw [hr] at h
        exact absurd h (by simp)
    · rw [if_pos (by simp [hbit])] at h
      have ht1 : (if added then t
          else goDate (tYear t) (tMonth t) (tDay t) 0 0 0 0) = t - t % nsDay := by
        cases added
        · simp [dayStart_eq]
        · simp
          rcases hpre rfl with hc | hc
          · exact absurd hc hbit
          · omega
      rw [ht1, addDate_day_one] at h
      have hh0 : tHour (t - t % nsDay + nsDay) = 0 := by
        unfold tHour nsDay nsHour
        omega
      rw [hh0] at h
      rw [if_neg (show ¬((0 : Int) ≠ 0) by norm_num)] at h
      have hbd : 0 ≤ t % nsDay ∧ t % nsDay < nsDay := by unfold nsDay; omega
      have hd2 : dayNum (t - t % nsDay + nsDay) = dayNum t + 1 ∧
          (t - t % nsDay + nsDay) % nsS = 0 ∧ (t - t % nsDay + nsDay) % nsDay = 0 ∧
          t < t - t % nsDay + nsDay := by
        unfold dayNum nsS nsDay
        omega
      have htri := tDay_succ_fields hd2.1
      have hseg1 : NoMatchSeg s t (t - t % nsDay + nsDay) := by
        intro v hv1 hv2 hv3 hm
        apply hbit
        have heq : dayNum v = dayNum t := dayNum_local t v (by omega) (by omega)
        rw [← dayMatches_congr s heq]
        exact hm.2.2.1
      have hdr := tDay_range t
      split_ifs at h with hw
      · refine ⟨?_, ?_⟩
        · intro u a2 hr
          rw [hr] at h
          exact absurd h (by simp)
        · intro u a2 hr
          rw [hr] at h
          injection h with h'
          injection h' with hu ha
          subst hu
          refine ⟨hd2.2.2.2, hd2.2.2.1, hw, hseg1, ?_⟩
          rcases htri with ⟨hy, hm', hd⟩ | ⟨hd, hrest⟩
          · omega
          · rcases hrest with ⟨hy, hm'⟩ | ⟨hy, hm', hm12⟩
            · exact Or.inl ⟨hy, hm'⟩
            · exact Or.inr ⟨hy, hm', hm12⟩
      · rcases htri with ⟨hy2, hm2, hd2'⟩ | ⟨hd2', hrest⟩
        · have ih' := ih true (t - t % nsDay + nsDay) r h hd2.2.1
            (fun _ => Or.inr hd2.2.2.1)
          refine ⟨?_, ?_⟩
          · intro u a2 hr
            obtain ⟨c1, c2, c3, c4, c5, c6, c7⟩ := ih'.1 u a2 hr
            refine ⟨c1, by omega, c3, by omega, by omega,
              NoMatchSeg_trans hseg1 c6, ?_⟩
            rcases c7 with ⟨hu, ha⟩ | ⟨hu, ha⟩
            · exact Or.inr ⟨by rw [hu]; exact hd2.2.2.1, ha⟩
            · exact Or.inr ⟨hu, ha⟩
          · intro u a2 hr
            obtain ⟨c1, c2, c3, c4, c5⟩ := ih'.2 u a2 hr
            refine ⟨by omega, c2, c3, NoMatchSeg_trans hseg1 c4, by omega⟩
        · exact absurd hd2' hw

theorem monthStart_mod (y m : Int) : goDate y m 1 0 0 0 0 % nsDay = 0 := by
  rw [goDate_monthStart]
  unfold nsDay
  omega

theorem yearStart_succ (y : Int) :
    goDate (y + 1) 1 1 0 0 0 0 = goDate y 1 1 0 0 0 0 + daysInYear y * nsDay := by
  rw [goDate_monthStart, goDate_monthStart, yearStart_days, yearStart_days, toYS_succ]
  ring

theorem goDate_dec_jan (y : Int) :
    goDate y (12 + 1) 1 0 0 0 0 = goDate (y + 1) 1 1 0 0 0 0 := by
  have h : (12 + 1 : Int) = 13 := by norm_num
  rw [h]
  unfold goDate
  rw [dateToDays_dec_jan]

theorem nextMonthLoop_spec (s : SpecSchedule) : ∀ fuel added t r,
    nextMonthLoop s fuel added t = some r → t % nsS = 0 →
    (added = true → s.Month.testBit (tMonth t).toNat ∨ (tDay t = 1 ∧ t % nsDay = 0)) →
    (∀ u a2, r = LoopRes.done u a2 →
      s.Month.testBit (tMonth u).toNat ∧ t ≤ u ∧ u % nsS = 0 ∧
      tYear u = tYear t ∧ NoMatchSeg s t u ∧
      (u = t ∧ a2 = added ∨ tDay u = 1 ∧ u % nsDay = 0 ∧ a2 = true)) ∧
    (∀ u a2, r = LoopRes.wrap u a2 →
      t < u ∧ tMonth u = 1 ∧ tDay u = 1 ∧ u % nsDay = 0 ∧
      tYear u = tYear t + 1 ∧ NoMatchSeg s t u) := by
  intro fuel
  induction fuel with
  | zero => intro added t r h; simp [nextMonthLoop] at h
  | succ f ih =>
    intro added t r h hal hpre
    simp only [nextMonthLoop] at h
    by_cases hbit : s.Month.testBit (tMonth t).toNat
    · rw [if_neg (by simp [hbit])] at h
      refine ⟨?_, ?_⟩
      · intro u a2 hr
        rw [hr] at h
        injection h with h'
        injection h' with hu ha
        subst hu
        exact ⟨hbit, le_refl t, hal, rfl, NoMatchSeg_nil (le_refl t),
          Or.inl ⟨rfl, ha.symm⟩⟩
      · intro u a2 hr
        rw [hr] at h
        exact absurd h (by simp)
    · rw [if_pos (by simp [hbit])] at h
      have hmr := tMonth_range t
      have ht1 : (if added then t
          else goDate (tYear t) (tMonth t) 1 0 0 0 0) = goDate (tYear t) (tMonth t) 1 0 0 0 0 := by
        cases added
        · simp
        · simp only [if_pos rfl]
          rcases hpre rfl with hc | hc
          · exact absurd hc hbit
          · have e1 := dayStart_eq t
            rw [hc.1] at e1
            omega
      rw [ht1, addDate_on_monthStart (tYear t) (tMonth t) hmr.1 hmr.2] at h
      have hms := monthStart_le t
      have hsucc := goDate_month_succ (tYear t) (tMonth t) 1 0 0 0 0 hmr.1 hmr.2
      have hseg1 : NoMatchSeg s t (goDate (tYear t) (tMonth t + 1) 1 0 0 0 0) := by
        intro v hv1 hv2 hv3 hm
        apply hbit
        have hu := month_local_unique (tYear t) (tMonth t) v hmr.1 hmr.2 (by omega)
          (by omega)
        rw [← hu.2]
        exact hm.2.1
      split_ifs at h with hw
      · -- wrap taken: the new month is January, so the old month was December
        rcases lt_or_eq_of_le hmr.2 with h11 | h12
        · have hdm := daysInMonth_bounds (tYear t) (tMonth t + 1) (by omega) (by omega)
          have hv := goDate_fields (tYear t) (tMonth t + 1) 1 0 0 0 0 (by omega)
            (by omega) (by norm_num) (by omega) (by norm_num) (by norm_num)
            (by norm_num) (by norm_num) (by norm_num) (by norm_num) (by norm_num)
            (by norm_num)
          rw [hv.2.1] at hw
          omega
        · rw [h12] at h hseg1 hsucc hms
          rw [goDate_dec_jan] at h hseg1 hsucc
          have hdm := daysInMonth_bounds (tYear t + 1) 1 (by norm_num) (by norm_num)
          have hv := goDate_fields (tYear t + 1) 1 1 0 0 0 0 (by norm_num) (by norm_num)
            (by norm_num) (by omega) (by norm_num) (by norm_num) (by norm_num)
            (by norm_num) (by norm_num) (by norm_num) (by norm_num) (by norm_num)
          refine ⟨?_, ?_⟩
          · intro u a2 hr
            rw [hr] at h
            exact absurd h (by simp)
          · intro u a2 hr
            rw [hr] at h
            injection h with h'
            injection h' with hu ha
            subst hu
            exact ⟨by omega, hv.2.1, hv.2.2.1, monthStart_mod _ _, hv.1, hseg1⟩
      · -- no wrap: the new month is within the same year
        have h11 : tMonth t ≤ 11 := by
          rcases lt_or_eq_of_le hmr.2 with h11 | h12
          · omega
          · rw [h12] at hw
            rw [goDate_dec_jan] at hw
            have hv := goDate_fields (tYear t + 1) 1 1 0 0 0 0 (by norm_num) (by norm_num)
              (by norm_num)
              (by have := daysInMonth_bounds (tYear t + 1) 1 (by norm_num) (by norm_num); omega)
              (by norm_num) (by norm_num) (by norm_num) (by norm_num) (by norm_num)
              (by norm_num) (by norm_num) (by norm_num)
            exact absurd hv.2.1 hw
        have hdm := daysInMonth_bounds (tYear t) (tMonth t + 1) (by omega) (by omega)
        have hv := goDate_fields (tYear t) (tMonth t + 1) 1 0 0 0 0 (by omega) (by omega)
          (by norm_num) (by omega) (by norm_num) (by norm_num) (by norm_num)
          (by norm_num) (by norm_num) (by norm_num) (by norm_num) (by norm_num)
        have hmod := monthStart_mod (tYear t) (tMonth t + 1)
        have halign : goDate (tYear t) (tMonth t + 1) 1 0 0 0 0 % nsS = 0 := by
          unfold nsDay nsS at *
          omega
        have ih' := ih true (goDate (tYear t) (tMonth t + 1) 1 0 0 0 0) r h halign
          (fun _ => Or.inr ⟨hv.2.2.1, hmod⟩)
        refine ⟨?_, ?_⟩
        · intro u a2 hr
          obtain ⟨c1, c2, c3, c4, c5, c6⟩ := ih'.1 u a2 hr
          refine ⟨c1, by omega, c3, by rw [c4, hv.1], NoMatchSeg_trans hseg1 c5, ?_⟩
          rcases c6 with ⟨hu, ha⟩ | ⟨hu, ha⟩
          · exact Or.inr ⟨by rw [hu]; exact hv.2.2.1, by rw [hu]; exact hmod, ha⟩
          · exact Or.inr ⟨hu, ha⟩
        · intro u a2 hr
          obtain ⟨c1, c2, c3, c4, c5, c6⟩ := ih'.2 u a2 hr
          exact ⟨by omega, c2, c3, c4, by rw [c5, hv.1], NoMatchSeg_trans hseg1 c6⟩

theorem nextYearLoop_spec (s : SpecSchedule) (yearLimit : Int) : ∀ fuel added t u a2,
    nextYearLoop s yearLimit fuel added t = some (u, a2) → t % nsS = 0 →
    (added = true → yearOk s t ∨ (tMonth t = 1 ∧ tDay t = 1 ∧ t % nsDay = 0)) →
    yearOk s u ∧ t ≤ u ∧ u % nsS = 0 ∧ NoMatchSeg s t u ∧
    (u = t ∧ a2 = added ∨
      (tMonth u = 1 ∧ tDay u = 1 ∧ u % nsDay = 0 ∧ a2 = true ∧
       tYear u ≤ yearLimit ∧ tYear u ≤ maxYear)) := by
  intro fuel
  induction fuel with
  | zero => intro added t u a2 h; simp [nextYearLoop] at h
  | succ f ih =>
    intro added t u a2 h hal hpre
    simp only [nextYearLoop] at h
    by_cases hok : yearOk s t
    · rw [if_neg (by
        simp only [not_or, not_lt, not_not]
        exact ⟨hok.1, hok.2⟩)] at h
      injection h with h'
      injection h' with hu ha
      subst hu
      exact ⟨hok, le_refl t, hal, NoMatchSeg_nil (le_refl t), Or.inl ⟨rfl, ha.symm⟩⟩
    · rw [if_pos (by
        rcases not_and_or.mp hok with h' | h'
        · exact Or.inl (by omega)
        · exact Or.inr h')] at h
      have ht1 : (if added then t else goDate (tYear t) 1 1 0 0 0 0) =
          goDate (tYear t) 1 1 0 0 0 0 := by
        cases added
        · simp
        · simp only [if_pos rfl]
          rcases hpre rfl with hc | hc
          · exact absurd hc hok
          · have e1 := dayStart_eq t
            rw [hc.1, hc.2.1] at e1
            omega
      rw [ht1, addDate_on_yearStart] at h
      have hys := yearStart_le t
      have hsucc := yearStart_succ (tYear t)
      have hseg1 : NoMatchSeg s t (goDate (tYear t + 1) 1 1 0 0 0 0) := by
        intro v hv1 hv2 hv3 hm
        apply hok
        have hu := year_local_unique (tYear t) v (by omega) (by omega)
        have := hm.1
        unfold yearOk at *
        rw [hu] at this
        exact this
      have hdm := daysInMonth_bounds (tYear t + 1) 1 (by norm_num) (by norm_num)
      have hv := goDate_fields (tYear t + 1) 1 1 0 0 0 0 (by norm_num) (by norm_num)
        (by norm_num) (by omega) (by norm_num) (by norm_num) (by norm_num)
        (by norm_num) (by norm_num) (by norm_num) (by norm_num) (by norm_num)
      have hmod := monthStart_mod (tYear t + 1) 1
      have halign : goDate (tYear t + 1) 1 1 0 0 0 0 % nsS = 0 := by
        unfold nsDay nsS at *
        omega
      by_cases hlim : yearLimit < tYear (goDate (tYear t + 1) 1 1 0 0 0 0) ∨
          maxYear < tYear (goDate (tYear t + 1) 1 1 0 0 0 0)
      · rw [if_pos hlim] at h
        exact Option.noConfusion h
      · rw [if_neg hlim] at h
        have ih' := ih true (goDate (tYear t + 1) 1 1 0 0 0 0) u a2 h halign
          (fun _ => Or.inr ⟨hv.2.1, hv.2.2.1, hmod⟩)
        obtain ⟨c1, c2, c3, c4, c5⟩ := ih'
        rw [hv.1] at hlim
        refine ⟨c1, by omega, c3, NoMatchSeg_trans hseg1 c4, ?_⟩
        rcases c5 with ⟨hu, ha⟩ | ⟨m1, d1, md, ha, l1, l2⟩
        · refine Or.inr ⟨by rw [hu]; exact hv.2.1, by rw [hu]; exact hv.2.2.1,
            by rw [hu]; exact hmod, ha, ?_, ?_⟩ <;>
          · rw [hu, hv.1]
            omega
        · exact Or.inr ⟨m1, d1, md, ha, l1, l2⟩

theorem yearOk_congr (s : SpecSchedule) {a b : Int} (h : tYear a = tYear b) :
    yearOk s a ↔ yearOk s b := by
  unfold yearOk; rw [h]

/-- Month/year components of `WrapInv` after stepping to the next day. -/
theorem wrapinv_day_step (s : SpecSchedule) {told tnew : Int}
    (h : dayNum tnew = dayNum told + 1) (hmb : s.Month.testBit (tMonth told).toNat)
    (hyok : yearOk s told) (hd : tnew % nsDay = 0) :
    (s.Month.testBit (tMonth tnew).toNat ∨ (tDay tnew = 1 ∧ tnew % nsDay = 0)) ∧
    (yearOk s tnew ∨ (tMonth tnew = 1 ∧ tDay tnew = 1 ∧ tnew % nsDay = 0)) := by
  rcases tDay_succ_fields h with ⟨hy, hm, _⟩ | ⟨hd1, hrest⟩
  · constructor
    · left; rw [hm]; exact hmb
    · left; exact (yearOk_congr s hy).mpr hyok
  · constructor
    · right; exact ⟨hd1, hd⟩
    · rcases hrest with ⟨hy, hm⟩ | ⟨hy, hm, _⟩
      · left; exact (yearOk_congr s hy).mpr hyok
      · right; exact ⟨hm, hd1, hd⟩

theorem nextWrap_spec (s : SpecSchedule) (yearLimit : Int) : ∀ fuel added t u,
    nextWrap s yearLimit fuel added t = some u → t % nsS = 0 →
    (added = true → WrapInv s t) →
    matchesF s u ∧ t ≤ u ∧ u % nsS = 0 ∧ NoMatchSeg s t u ∧
    tYear u ≤ yearLimit ∧ tYear u ≤ maxYear := by
  intro fuel
  induction fuel with
  | zero => intro added t u h; simp [nextWrap] at h
  | succ f ih =>
    intro added t u h hal hinv
    simp only [nextWrap] at h
    by_cases hchk : yearLimit < tYear t ∨ maxYear < tYear t
    · rw [if_pos hchk] at h
      exact Option.noConfusion h
    rw [if_neg hchk] at h
    rcases hY : nextYearLoop s yearLimit (f + 1) added t with _ | ⟨t1, a1⟩
    · rw [hY] at h; exact Option.noConfusion h
    rw [hY] at h
    simp only [] at h
    have yspec := nextYearLoop_spec s yearLimit (f + 1) added t t1 a1 hY hal
      (fun ha => (hinv ha).2.2.2.2)
    obtain ⟨yOk1, hle1, hal1, seg1, disjY⟩ := yspec
    have hyear1 : tYear t1 ≤ yearLimit ∧ tYear t1 ≤ maxYear := by
      rcases disjY with ⟨he, -⟩ | ⟨-, -, -, -, l1, l2⟩
      · rw [he]
        exact ⟨by omega, by omega⟩
      · exact ⟨l1, l2⟩
    have preM : a1 = true → s.Month.testBit (tMonth t1).toNat ∨
        (tDay t1 = 1 ∧ t1 % nsDay = 0) := by
      intro ha1
      rcases disjY with ⟨he, ha⟩ | ⟨m1, d1, md, -⟩
      · rw [he]
        exact (hinv (ha ▸ ha1)).2.2.2.1
      · exact Or.inr ⟨d1, md⟩
    rcases hM : nextMonthLoop s (f + 1) a1 t1 with _ | r2
    · rw [hM] at h; exact Option.noConfusion h
    have mspec := nextMonthLoop_spec s (f + 1) a1 t1 r2 hM hal1 preM
    rcases r2 with ⟨t2, a2⟩ | ⟨t2, a2⟩
    · -- month loop fell through
      rw [hM] at h
      simp only [] at h
      obtain ⟨mBit2, hle2, hal2, hyr2, seg2, disjM⟩ := mspec.1 t2 a2 rfl
      have preD : a2 = true → dayMatches s t2 = true ∨ t2 % nsDay = 0 := by
        intro ha2
        rcases disjM with ⟨he2, ha⟩ | ⟨-, md, -⟩
        · rw [he2]
          rcases disjY with ⟨he1, ha'⟩ | ⟨-, -, md1, -⟩
          · rw [he1]
            exact (hinv (by rw [← ha', ← ha]; exact ha2)).2.2.1
          · exact Or.inr md1
        · exact Or.inr md
      rcases hD : nextDayLoop s (f + 1) a2 t2 with _ | r3
      · rw [hD] at h; exact Option.noConfusion h
      have dspec := nextDayLoop_spec s (f + 1) a2 t2 r3 hD hal2 preD
      rcases r3 with ⟨t3, a3⟩ | ⟨t3, a3⟩
      · -- day loop fell through
        rw [hD] at h
        simp only [] at h
        obtain ⟨dM3, hle3, hal3, hyr3, hmo3, seg3, disjD⟩ := dspec.1 t3 a3 rfl
        have preH : a3 = true → s.Hour.testBit (tHour t3).toNat ∨ t3 % nsHour = 0 := by
          intro ha3
          rcases disjD with ⟨he3, ha⟩ | ⟨md, -⟩
          · rw [he3]
            rcases disjM with ⟨he2, ha'⟩ | ⟨-, md2, -⟩
            · rw [he2]
              rcases disjY with ⟨he1, ha''⟩ | ⟨-, -, md1, -⟩
              · rw [he1]
                exact (hinv (by rw [← ha'', ← ha', ← ha]; exact ha3)).2.1
              · right; unfold nsDay nsHour at *; omega
            · right; unfold nsDay nsHour at *; omega
          · right; unfold nsDay nsHour at *; omega
        rcases hH : nextHourLoop s (f + 1) a3 t3 with _ | r4
        · rw [hH] at h; exact Option.noConfusion h
        have hspec := nextHourLoop_spec s (f + 1) a3 t3 r4 hH hal3 preH
        rcases r4 with ⟨t4, a4⟩ | ⟨t4, a4⟩
        · -- hour loop fell through
          rw [hH] at h
          simp only [] at h
          obtain ⟨hBit4, hle4, hal4, hdn4, seg4, disjH⟩ := hspec.1 t4 a4 rfl
          have preMin : a4 = true → t4 % nsMin = 0 := by
            intro ha4
            rcases disjH with ⟨he4, ha⟩ | ⟨hh, -⟩
            · rw [he4]
              rcases disjD with ⟨he3, ha'⟩ | ⟨md, -⟩
              · rw [he3]
                rcases disjM with ⟨he2, ha''⟩ | ⟨-, md2, -⟩
                · rw [he2]
                  rcases disjY with ⟨he1, ha'''⟩ | ⟨-, -, md1, -⟩
                  · rw [he1]
                    exact (hinv (by rw [← ha''', ← ha'', ← ha', ← ha]; exact ha4)).1
                  · unfold nsDay nsMin at *; omega
                · unfold nsDay nsMin at *; omega
              · unfold nsDay nsMin at *; omega
            · unfold nsHour nsMin at *; omega
          rcases hMi : nextMinLoop s (f + 1) a4 t4 with _ | r5
          · rw [hMi] at h; exact Option.noConfusion h
          have mispec := nextMinLoop_spec s (f + 1) a4 t4 r5 hMi hal4 preMin
          rcases r5 with ⟨t5, a5⟩ | ⟨t5, a5⟩
          · -- minute loop fell through
            rw [hMi] at h
            simp only [] at h
            obtain ⟨miBit5, hle5, hal5, hho5, hdn5, seg5, disjMi⟩ := mispec.1 t5 a5 rfl
            rcases hS : nextSecLoop s (f + 1) a5 t5 with _ | r6
            · rw [hS] at h; exact Option.noConfusion h
            have sspec := nextSecLoop_spec s (f + 1) a5 t5 r6 hS hal5
            rcases r6 with ⟨t6, a6⟩ | ⟨t6, a6⟩
            · -- second loop fell through: h : some t6 = some u
              rw [hS] at h
              simp only [] at h
              obtain ⟨sBit6, hle6, hal6, hmi6, hho6, hdn6, seg6⟩ := sspec.1 t6 a6 rfl
              injection h with hu
              subst hu
              have hdn63 : dayNum t6 = dayNum t3 := by omega
              have hsf := sameDay_fields hdn63
              refine ⟨⟨?_, ?_, ?_, ?_, ?_, ?_⟩, by omega, hal6, ?_, ?_, ?_⟩
              · exact (yearOk_congr s (by rw [hsf.1, hyr3, hyr2])).mpr yOk1
              · rw [hsf.2.1, hmo3]
                exact mBit2
              · rw [dayMatches_congr s hdn63]
                exact dM3
              · rw [hho6, hho5]
                exact hBit4
              · rw [hmi6]
                exact miBit5
              · exact sBit6
              · exact NoMatchSeg_trans seg1 (NoMatchSeg_trans seg2 (NoMatchSeg_trans seg3
                  (NoMatchSeg_trans seg4 (NoMatchSeg_trans seg5 seg6))))
              · rw [hsf.1, hyr3, hyr2]; omega
              · rw [hsf.1, hyr3, hyr2]; omega
            · -- second loop wrapped
              rw [hS] at h
              simp only [] at h
              obtain ⟨hlt6, hal6, seg6, casc⟩ := sspec.2 t6 a6 rfl
              have hinv6 : WrapInv s t6 := by
                refine ⟨hal6, ?_, ?_, ?_, ?_⟩
                · rcases casc with ⟨-, hh, -⟩ | ⟨hh2, -⟩
                  · left; rw [hh, hho5]; exact hBit4
                  · right; exact hh2
                · rcases casc with ⟨-, -, hd⟩ | ⟨-, ⟨-, hd⟩ | ⟨hd2, -⟩⟩
                  · left
                    rw [dayMatches_congr s (show dayNum t6 = dayNum t3 by omega)]
                    exact dM3
                  · left
                    rw [dayMatches_congr s (show dayNum t6 = dayNum t3 by omega)]
                    exact dM3
                  · right; exact hd2
                · rcases casc with ⟨-, -, hd⟩ | ⟨-, ⟨-, hd⟩ | ⟨hd2, hd1⟩⟩
                  · left
                    rw [(sameDay_fields (show dayNum t6 = dayNum t3 by omega)).2.1, hmo3]
                    exact mBit2
                  · left
                    rw [(sameDay_fields (show dayNum t6 = dayNum t3 by omega)).2.1, hmo3]
                    exact mBit2
                  · exact (wrapinv_day_step s (show dayNum t6 = dayNum t3 + 1 by omega)
                      (by rw [hmo3]; exact mBit2)
                      ((yearOk_congr s (by rw [hyr3, hyr2])).mpr yOk1) hd2).1
                · rcases casc with ⟨-, -, hd⟩ | ⟨-, ⟨-, hd⟩ | ⟨hd2, hd1⟩⟩
                  · left
                    exact (yearOk_congr s (by rw [(sameDay_fields
                      (show dayNum t6 = dayNum t3 by omega)).1, hyr3, hyr2])).mpr yOk1
                  · left
                    exact (yearOk_congr s (by rw [(sameDay_fields
                      (show dayNum t6 = dayNum t3 by omega)).1, hyr3, hyr2])).mpr yOk1
                  · exact (wrapinv_day_step s (show dayNum t6 = dayNum t3 + 1 by omega)
                      (by rw [hmo3]; exact mBit2)
                      ((yearOk_congr s (by rw [hyr3, hyr2])).mpr yOk1) hd2).2
              have ihres := ih a6 t6 u h (by unfold nsMin nsS at *; omega)
                (fun _ => hinv6)
              obtain ⟨c1, c2, c3, c4, c5, c6⟩ := ihres
              exact ⟨c1, by omega, c3,
                NoMatchSeg_trans seg1 (NoMatchSeg_trans seg2 (NoMatchSeg_trans seg3
                  (NoMatchSeg_trans seg4 (NoMatchSeg_trans seg5
                    (NoMatchSeg_trans seg6 c4))))), c5, c6⟩
          · -- minute loop wrapped
            rw [hMi] at h
            simp only [] at h
            obtain ⟨hlt5, hal5', seg5, casc⟩ := mispec.2 t5 a5 rfl
            have hinv5 : WrapInv s t5 := by
              refine ⟨by unfold nsHour nsMin at *; omega, Or.inr hal5', ?_, ?_, ?_⟩
              · rcases casc with ⟨-, hd⟩ | ⟨hd2, -⟩
                · left
                  rw [dayMatches_congr s (show dayNum t5 = dayNum t3 by omega)]
                  exact dM3
                · right; exact hd2
              · rcases casc with ⟨-, hd⟩ | ⟨hd2, hd1⟩
                · left
                  rw [(sameDay_fields (show dayNum t5 = dayNum t3 by omega)).2.1, hmo3]
                  exact mBit2
                · exact (wrapinv_day_step s (show dayNum t5 = dayNum t3 + 1 by omega)
                    (by rw [hmo3]; exact mBit2)
                    ((yearOk_congr s (by rw [hyr3, hyr2])).mpr yOk1) hd2).1
              · rcases casc with ⟨-, hd⟩ | ⟨hd2, hd1⟩
                · left
                  exact (yearOk_congr s (by rw [(sameDay_fields
                    (show dayNum t5 = dayNum t3 by omega)).1, hyr3, hyr2])).mpr yOk1
                · exact (wrapinv_day_step s (show dayNum t5 = dayNum t3 + 1 by omega)
                    (by rw [hmo3]; exact mBit2)
                    ((yearOk_congr s (by rw [hyr3, hyr2])).mpr yOk1) hd2).2
            have ihres := ih a5 t5 u h (by unfold nsHour nsS at *; omega)
              (fun _ => hinv5)
            obtain ⟨c1, c2, c3, c4, c5, c6⟩ := ihres
            exact ⟨c1, by omega, c3,
              NoMatchSeg_trans seg1 (NoMatchSeg_trans seg2 (NoMatchSeg_trans seg3
                (NoMatchSeg_trans seg4 (NoMatchSeg_trans seg5 c4)))), c5, c6⟩
        · -- hour loop wrapped
          rw [hH] at h
          simp only [] at h
          obtain ⟨hlt4, hal4', seg4, hdn4⟩ := hspec.2 t4 a4 rfl
          have hinv4 : WrapInv s t4 := by
            refine ⟨by unfold nsDay nsMin at *; omega,
              Or.inr (by unfold nsDay nsHour at *; omega), Or.inr hal4', ?_, ?_⟩
            · exact (wrapinv_day_step s (show dayNum t4 = dayNum t3 + 1 by omega)
                (by rw [hmo3]; exact mBit2)
                ((yearOk_congr s (by rw [hyr3, hyr2])).mpr yOk1) hal4').1
            · exact (wrapinv_day_step s (show dayNum t4 = dayNum t3 + 1 by omega)
                (by rw [hmo3]; exact mBit2)
                ((yearOk_congr s (by rw [hyr3, hyr2])).mpr yOk1) hal4').2
          have ihres := ih a4 t4 u h (by unfold nsDay nsS at *; omega) (fun _ => hinv4)
          obtain ⟨c1, c2, c3, c4, c5, c6⟩ := ihres
          exact ⟨c1, by omega, c3,
            NoMatchSeg_trans seg1 (NoMatchSeg_trans seg2 (NoMatchSeg_trans seg3
              (NoMatchSeg_trans seg4 c4))), c5, c6⟩
      · -- day loop wrapped
        rw [hD] at h
        simp only [] at h
        obtain ⟨hlt3, hal3', hd3, seg3, hrel⟩ := dspec.2 t3 a3 rfl
        have hinv3 : WrapInv s t3 := by
          refine ⟨by unfold nsDay nsMin at *; omega,
            Or.inr (by unfold nsDay nsHour at *; omega), Or.inr hal3',
            Or.inr ⟨hd3, hal3'⟩, ?_⟩
          rcases hrel with ⟨hy, hm⟩ | ⟨hy, hm, -⟩
          · left
            exact (yearOk_congr s (by rw [hy, hyr2])).mpr yOk1
          · right; exact ⟨hm, hd3, hal3'⟩
        have ihres := ih a3 t3 u h (by unfold nsDay nsS at *; omega) (fun _ => hinv3)
        obtain ⟨c1, c2, c3, c4, c5, c6⟩ := ihres
        exact ⟨c1, by omega, c3,
          NoMatchSeg_trans seg1 (NoMatchSeg_trans seg2 (NoMatchSeg_trans seg3 c4)),
          c5, c6⟩
    · -- month loop wrapped
      rw [hM] at h
      simp only [] at h
      obtain ⟨hlt2, hm2, hd2, hmd2, hyr2, seg2⟩ := mspec.2 t2 a2 rfl
      have hinv2 : WrapInv s t2 := by
        refine ⟨by unfold nsDay nsMin at *; omega,
          Or.inr (by unfold nsDay nsHour at *; omega), Or.inr hmd2,
          Or.inr ⟨hd2, hmd2⟩, Or.inr ⟨hm2, hd2, hmd2⟩⟩
      have ihres := ih a2 t2 u h (by unfold nsDay nsS at *; omega) (fun _ => hinv2)
      obtain ⟨c1, c2, c3, c4, c5, c6⟩ := ihres
      exact ⟨c1, by omega, c3, NoMatchSeg_trans seg1 (NoMatchSeg_trans seg2 c4), c5, c6⟩

/-! ## Specifications of the `Latest` loops -/

theorem latSecLoop_spec (s : SpecSchedule) : ∀ fuel t r,
    latSecLoop s fuel t = some r → t % nsS = 0 →
    (∀ u, r = LatRes.done u → s.Second.testBit (tSec u).toNat ∧ u ≤ t ∧ u % nsS = 0 ∧
      tMin u = tMin t ∧ tHour u = tHour t ∧ dayNum u = dayNum t) ∧
    (∀ u, r = LatRes.wrap u → u < t ∧ u % nsS = 0) := by
  intro fuel
  induction fuel with
  | zero => intro t r h; simp [latSecLoop] at h
  | succ f ih =>
    intro t r h hal
    simp only [latSecLoop] at h
    by_cases hbit : s.Second.testBit (tSec t).toNat
    · rw [if_neg (by simp [hbit])] at h
      refine ⟨?_, ?_⟩
      · intro u hr
        rw [hr] at h
        injection h with h'
        injection h' with hu
        subst hu
        exact ⟨hbit, le_refl t, hal, rfl, rfl, rfl⟩
      · intro u hr
        rw [hr] at h
        exact absurd h (by simp)
    · rw [if_pos (by simp [hbit])] at h
      have htr : truncSec t = t := by unfold truncSec; omega
      rw [htr] at h
      by_cases hw : tSec t = 0
      · rw [if_pos (by simp [hw])] at h
        refine ⟨?_, ?_⟩
        · intro u hr
          rw [hr] at h
          exact absurd h (by simp)
        · intro u hr
          rw [hr] at h
          injection h with h'
          injection h' with hu
          subst hu
          constructor
          · unfold nsS at *; omega
          · unfold nsS at *; omega
      · rw [if_neg (by simp [hw])] at h
        have hstep : (t - nsS) % nsS = 0 ∧ tMin (t - nsS) = tMin t ∧
            tHour (t - nsS) = tHour t ∧ dayNum (t - nsS) = dayNum t := by
          unfold tSec tMin tHour dayNum nsS nsMin nsHour nsDay at *
          omega
        have ih' := ih (t - nsS) r h hstep.1
        refine ⟨?_, ?_⟩
        · intro u hr
          obtain ⟨c1, c2, c3, c4, c5, c6⟩ := ih'.1 u hr
          exact ⟨c1, by unfold nsS at *; omega, c3, by omega, by omega, by omega⟩
        · intro u hr
          obtain ⟨c1, c2⟩ := ih'.2 u hr
          exact ⟨by unfold nsS at *; omega, c2⟩

theorem latMinLoop_spec (s : SpecSchedule) : ∀ fuel t r,
    latMinLoop s fuel t = some r → t % nsS = 0 →
    (∀ u, r = LatRes.done u → s.Minute.testBit (tMin u).toNat ∧ u ≤ t ∧ u % nsS = 0 ∧
      tHour u = tHour t ∧ dayNum u = dayNum t) ∧
    (∀ u, r = LatRes.wrap u → u < t ∧ u % nsS = 0) := by
  intro fuel
  induction fuel with
  | zero => intro t r h; simp [latMinLoop] at h
  | succ f ih =>
    intro t r h hal
    simp only [latMinLoop] at h
    by_cases hbit : s.Minute.testBit (tMin t).toNat
    · rw [if_neg (by simp [hbit])] at h
      refine ⟨?_, ?_⟩
      · intro u hr
        rw [hr] at h
        injection h with h'
        injection h' with hu
        subst hu
        exact ⟨hbit, le_refl t, hal, rfl, rfl⟩
      · intro u hr
        rw [hr] at h
        exact absurd h (by simp)
    · rw [if_pos (by simp [hbit])] at h
      by_cases hw : tMin t = 0
      · rw [if_pos (by simp [hw])] at h
        refine ⟨?_, ?_⟩
        · intro u hr
          rw [hr] at h
          exact absurd h (by simp)
        · intro u hr
          rw [hr] at h
          injection h with h'
          injection h' with hu
          subst hu
          constructor
          · unfold truncMin nsS nsMin at *; omega
          · unfold truncMin nsS nsMin at *; omega
      · rw [if_neg (by simp [hw])] at h
        have hstep : (truncMin t - nsS) % nsS = 0 ∧
            tHour (truncMin t - nsS) = tHour t ∧
            dayNum (truncMin t - nsS) = dayNum t ∧ truncMin t - nsS ≤ t := by
          unfold truncMin tMin tHour dayNum nsS nsMin nsHour nsDay at *
          omega
        have ih' := ih (truncMin t - nsS) r h hstep.1
        refine ⟨?_, ?_⟩
        · intro u hr
          obtain ⟨c1, c2, c3, c4, c5⟩ := ih'.1 u hr
          exact ⟨c1, by omega, c3, by omega, by omega⟩
        · intro u hr
          obtain ⟨c1, c2⟩ := ih'.2 u hr
          exact ⟨by omega, c2⟩

theorem latHourLoop_spec (s : SpecSchedule) : ∀ fuel t r,
    latHourLoop s fuel t = some r → t % nsS = 0 →
    (∀ u, r = LatRes.done u → s.Hour.testBit (tHour u).toNat ∧ u ≤ t ∧ u % nsS = 0 ∧
      dayNum u = dayNum t) ∧
    (∀ u, r = LatRes.wrap u → u < t ∧ u % nsS = 0) := by
  intro fuel
  induction fuel with
  | zero => intro t r h; simp [latHourLoop] at h
  | succ f ih =>
    intro t r h hal
    simp only [latHourLoop] at h
    by_cases hbit : s.Hour.testBit (tHour t).toNat
    · rw [if_neg (by simp [hbit])] at h
      refine ⟨?_, ?_⟩
      · intro u hr
        rw [hr] at h
        injection h with h'
        injection h' with hu
        subst hu
        exact ⟨hbit, le_refl t, hal, rfl⟩
      · intro u hr
        rw [hr] at h
        exact absurd h (by simp)
    · rw [if_pos (by simp [hbit])] at h
      rw [hourStart_eq] at h
      by_cases hw : tHour t = 0
      · rw [if_pos (by simp [hw])] at h
        refine ⟨?_, ?_⟩
        · intro u hr
          rw [hr] at h
          exact absurd h (by simp)
        · intro u hr
          rw [hr] at h
          injection h with h'
          injection h' with hu
          subst hu
          constructor
          · unfold nsS nsHour at *; omega
          · unfold nsS nsHour at *; omega
      · rw [if_neg (by simp [hw])] at h
        have hstep : (t - t % nsHour - nsS) % nsS = 0 ∧
            tHour (t - t % nsHour - nsS) = tHour t - 1 ∧
            dayNum (t - t % nsHour - nsS) = dayNum t ∧ t - t % nsHour - nsS ≤ t := by
          unfold tHour dayNum nsS nsHour nsDay at *
          omega
        have ih' := ih (t - t % nsHour - nsS) r h hstep.1
        refine ⟨?_, ?_⟩
        · intro u hr
          obtain ⟨c1, c2, c3, c4⟩ := ih'.1 u hr
          exact ⟨c1, by omega, c3, by omega⟩
        · intro u hr
          obtain ⟨c1, c2⟩ := ih'.2 u hr
          exact ⟨by omega, c2⟩

theorem latDayLoop_spec (s : SpecSchedule) : ∀ fuel t r,
    latDayLoop s fuel t = some r → t % nsS = 0 →
    (∀ u, r = LatRes.done u → dayMatches s u = true ∧ u ≤ t ∧ u % nsS = 0 ∧
      tYear u = tYear t ∧ tMonth u = tMonth t) ∧
    (∀ u, r = LatRes.wrap u → u < t ∧ u % nsS = 0) := by
  intro fuel
  induction fuel with
  | zero => intro t r h; simp [latDayLoop] at h
  | succ f ih =>
    intro t r h hal
    simp only [latDayLoop] at h
    by_cases hbit : dayMatches s t = true
    · rw [if_neg (by simp [hbit])] at h
      refine ⟨?_, ?_⟩
      · intro u hr
        rw [hr] at h
        injection h with h'
        injection h' with hu
        subst hu
        exact ⟨hbit, le_refl t, hal, rfl, rfl⟩
      · intro u hr
        rw [hr] at h
        exact absurd h (by simp)
    · rw [if_pos (by simp [hbit])] at h
      rw [dayStart_eq] at h
      by_cases hw : tDay t = 1
      · rw [if_pos (by simp [hw])] at h
        refine ⟨?_, ?_⟩
        · intro u hr
          rw [hr] at h
          exact absurd h (by simp)
        · intro u hr
          rw [hr] at h
          injection h with h'
          injection h' with hu
          subst hu
          constructor
          · unfold nsS nsDay at *; omega
          · unfold nsS nsDay at *; omega
      · rw [if_neg (by simp [hw])] at h
        have hstep : (t - t % nsDay - nsS) % nsS = 0 ∧
            dayNum t = dayNum (t - t % nsDay - nsS) + 1 ∧ t - t % nsDay - nsS ≤ t := by
          unfold dayNum nsS nsDay at *
          omega
        have hdr2 := tDay_range (t - t % nsDay - nsS)
        have htri := tDay_succ_fields hstep.2.1
        have hpres : tYear (t - t % nsDay - nsS) = tYear t ∧
            tMonth (t - t % nsDay - nsS) = tMonth t := by
          rcases htri with ⟨hy, hm, hd⟩ | ⟨hd, -⟩
          · exact ⟨hy.symm, hm.symm⟩
          · exact absurd hd hw
        have ih' := ih (t - t % nsDay - nsS) r h hstep.1
        refine ⟨?_, ?_⟩
        · intro u hr
          obtain ⟨c1, c2, c3, c4, c5⟩ := ih'.1 u hr
          exact ⟨c1, by omega, c3, by rw [c4, hpres.1], by rw [c5, hpres.2]⟩
        · intro u hr
          obtain ⟨c1, c2⟩ := ih'.2 u hr
          exact ⟨by omega, c2⟩

theorem latMonthLoop_spec (s : SpecSchedule) : ∀ fuel t r,
    latMonthLoop s fuel t = some r → t % nsS = 0 →
    (∀ u, r = LatRes.done u → s.Month.testBit (tMonth u).toNat ∧ u ≤ t ∧
      u % nsS = 0 ∧ tYear u = tYear t) ∧
    (∀ u, r = LatRes.wrap u → u < t ∧ u % nsS = 0) := by
  intro fuel
  induction fuel with
  | zero => intro t r h; simp [latMonthLoop] at h
  | succ f ih =>
    intro t r h hal
    simp only [latMonthLoop] at h
    by_cases hbit : s.Month.testBit (tMonth t).toNat
    · rw [if_neg (by simp [hbit])] at h
      refine ⟨?_, ?_⟩
      · intro u hr
        rw [hr] at h
        injection h with h'
        injection h' with hu
        subst hu
        exact ⟨hbit, le_refl t, hal, rfl⟩
      · intro u hr
        rw [hr] at h
        exact absurd h (by simp)
    · rw [if_pos (by simp [hbit])] at h
      have hmr := tMonth_range t
      have hdm := daysInMonth_bounds (tYear t) (tMonth t) hmr.1 hmr.2
      have hfs := goDate_fields (tYear t) (tMonth t) 1 0 0 0 0 hmr.1 hmr.2 (by norm_num)
        (by omega) (by norm_num) (by norm_num) (by norm_num) (by norm_num) (by norm_num)
        (by norm_num) (by norm_num) (by norm_num)
      have hms := monthStart_le t
      have hmod := monthStart_mod (tYear t) (tMonth t)
      have hstep : (goDate (tYear t) (tMonth t) 1 0 0 0 0 - nsS) % nsS = 0 ∧
          dayNum (goDate (tYear t) (tMonth t) 1 0 0 0 0) =
            dayNum (goDate (tYear t) (tMonth t) 1 0 0 0 0 - nsS) + 1 ∧
          goDate (tYear t) (tMonth t) 1 0 0 0 0 - nsS < t := by
        unfold dayNum nsS nsDay at *
        omega
      have htri := tDay_succ_fields hstep.2.1
      have hdr2 := tDay_range (goDate (tYear t) (tMonth t) 1 0 0 0 0 - nsS)
      split_ifs at h with hw
      · refine ⟨?_, ?_⟩
        · intro u hr
          rw [hr] at h
          exact absurd h (by simp)
        · intro u hr
          rw [hr] at h
          injection h with h'
          injection h' with hu
          subst hu
          exact ⟨hstep.2.2, hstep.1⟩
      · have hpres : tYear (goDate (tYear t) (tMonth t) 1 0 0 0 0 - nsS) = tYear t := by
          rcases htri with ⟨hy, hm, hd⟩ | ⟨hd, hrest⟩
          · rw [hfs.2.2.1] at hd
            omega
          · rcases hrest with ⟨hy, hm⟩ | ⟨hy, hm, h12⟩
            · omega
            · exact absurd h12 hw
        have ih' := ih (goDate (tYear t) (tMonth t) 1 0 0 0 0 - nsS) r h hstep.1
        refine ⟨?_, ?_⟩
        · intro u hr
          obtain ⟨c1, c2, c3, c4⟩ := ih'.1 u hr
          exact ⟨c1, by omega, c3, by rw [c4, hpres]⟩
        · intro u hr
          obtain ⟨c1, c2⟩ := ih'.2 u hr
          exact ⟨by omega, c2⟩

theorem latYearLoop_spec (s : SpecSchedule) (yearLimit : Int) : ∀ fuel t u,
    latYearLoop s yearLimit fuel t = some u → t % nsS = 0 → minYear ≤ tYear t →
    s.Year.testBit (tYear u - minYear).toNat ∧ minYear ≤ tYear u ∧
    tYear u ≤ maxYear ∧ u ≤ t ∧ u % nsS = 0 := by
  intro fuel
  induction fuel with
  | zero => intro t u h; simp [latYearLoop] at h
  | succ f ih =>
    intro t u h hal hmin
    simp only [latYearLoop] at h
    by_cases hok : tYear t ≤ maxYear ∧ s.Year.testBit (tYear t - minYear).toNat
    · rw [if_neg (by
        simp only [not_or, not_lt, not_not]
        exact ⟨by omega, hok.2⟩)] at h
      injection h with hu
      subst hu
      exact ⟨hok.2, hmin, hok.1, le_refl t, hal⟩
    · rw [if_pos (by
        rcases not_and_or.mp hok with h' | h'
        · exact Or.inl (by omega)
        · exact Or.inr h')] at h
      have hys := yearStart_le t
      have hmod := monthStart_mod (tYear t) 1
      have hstep : (goDate (tYear t) 1 1 0 0 0 0 - nsS) % nsS = 0 ∧
          goDate (tYear t) 1 1 0 0 0 0 - nsS < t := by
        unfold nsS nsDay at *
        omega
      by_cases hlim : tYear (goDate (tYear t) 1 1 0 0 0 0 - nsS) < yearLimit ∨
          tYear (goDate (tYear t) 1 1 0 0 0 0 - nsS) < minYear
      · rw [if_pos hlim] at h
        exact Option.noConfusion h
      · rw [if_neg hlim] at h
        have ih' := ih (goDate (tYear t) 1 1 0 0 0 0 - nsS) u h hstep.1 (by omega)
        exact ⟨ih'.1, ih'.2.1, ih'.2.2.1, by omega, ih'.2.2.2.2⟩

theorem latestWrap_spec (s : SpecSchedule) (yearLimit : Int) : ∀ fuel t u,
    latestWrap s yearLimit fuel t = some u → t % nsS = 0 →
    matchesF s u ∧ u ≤ t ∧ u % nsS = 0 ∧ minYear ≤ tYear u ∧ tYear u ≤ maxYear := by
  intro fuel
  induction fuel with
  | zero => intro t u h; simp [latestWrap] at h
  | succ f ih =>
    intro t u h hal
    simp only [latestWrap] at h
    by_cases hchk : tYear t < yearLimit ∨ tYear t < minYear
    · rw [if_pos hchk] at h
      exact Option.noConfusion h
    rw [if_neg hchk] at h
    rcases hY : latYearLoop s yearLimit (f + 1) t with _ | t1
    · rw [hY] at h; exact Option.noConfusion h
    rw [hY] at h
    simp only [] at h
    have yspec := latYearLoop_spec s yearLimit (f + 1) t t1 hY hal (by omega)
    obtain ⟨yBit1, ymin1, ymax1, hle1, hal1⟩ := yspec
    rcases hM : latMonthLoop s (f + 1) t1 with _ | r2
    · rw [hM] at h; exact Option.noConfusion h
    have mspec := latMonthLoop_spec s (f + 1) t1 r2 hM hal1
    rcases r2 with t2 | t2
    · -- month loop fell through
      rw [hM] at h
      simp only [] at h
      obtain ⟨mBit2, hle2, hal2, hyr2⟩ := mspec.1 t2 rfl
      rcases hD : latDayLoop s (f + 1) t2 with _ | r3
      · rw [hD] at h; exact Option.noConfusion h
      have dspec := latDayLoop_spec s (f + 1) t2 r3 hD hal2
      rcases r3 with t3 | t3
      · -- day loop fell through
        rw [hD] at h
        simp only [] at h
        obtain ⟨dM3, hle3, hal3, hyr3, hmo3⟩ := dspec.1 t3 rfl
        rcases hH : latHourLoop s (f + 1) t3 with _ | r4
        · rw [hH] at h; exact Option.noConfusion h
        have hspec := latHourLoop_spec s (f + 1) t3 r4 hH hal3
        rcases r4 with t4 | t4
        · -- hour loop fell through
          rw [hH] at h
          simp only [] at h
          obtain ⟨hBit4, hle4, hal4, hdn4⟩ := hspec.1 t4 rfl
          rcases hMi : latMinLoop s (f + 1) t4 with _ | r5
          · rw [hMi] at h; exact Option.noConfusion h
          have mispec := latMinLoop_spec s (f + 1) t4 r5 hMi hal4
          rcases r5 with t5 | t5
          · -- minute loop fell through
            rw [hMi] at h
            simp only [] at h
            obtain ⟨miBit5, hle5, hal5, hho5, hdn5⟩ := mispec.1 t5 rfl
            rcases hS : latSecLoop s (f + 1) t5 with _ | r6
            · rw [hS] at h; exact Option.noConfusion h
            have sspec := latSecLoop_spec s (f + 1) t5 r6 hS hal5
            rcases r6 with t6 | t6
            · -- second loop fell through
              rw [hS] at h
              simp only [] at h
              obtain ⟨sBit6, hle6, hal6, hmi6, hho6, hdn6⟩ := sspec.1 t6 rfl
              injection h with hu
              subst hu
              have hdn63 : dayNum t6 = dayNum t3 := by omega
              have hsf := sameDay_fields hdn63
              have hyru : tYear t6 = tYear t1 := by rw [hsf.1, hyr3, hyr2]
              refine ⟨⟨⟨by omega, by rw [hyru]; exact yBit1⟩, ?_, ?_, ?_, ?_, ?_⟩,
                by omega, hal6, by omega, by omega⟩
              · rw [hsf.2.1, hmo3]
                exact mBit2
              · rw [dayMatches_congr s hdn63]
                exact dM3
              · rw [hho6, hho5]
                exact hBit4
              · rw [hmi6]
                exact miBit5
              · exact sBit6
            · -- second loop wrapped
              rw [hS] at h
              simp only [] at h
              obtain ⟨hlt6, hal6⟩ := sspec.2 t6 rfl
              have ihres := ih t6 u h hal6
              exact ⟨ihres.1, by omega, ihres.2.2.1, ihres.2.2.2.1, ihres.2.2.2.2⟩
          · -- minute loop wrapped
            rw [hMi] at h
            simp only [] at h
            obtain ⟨hlt5, hal5'⟩ := mispec.2 t5 rfl
            have ihres := ih t5 u h hal5'
            exact ⟨ihres.1, by omega, ihres.2.2.1, ihres.2.2.2.1, ihres.2.2.2.2⟩
        · -- hour loop wrapped
          rw [hH] at h
          simp only [] at h
          obtain ⟨hlt4, hal4'⟩ := hspec.2 t4 rfl
          have ihres := ih t4 u h hal4'
          exact ⟨ihres.1, by omega, ihres.2.2.1, ihres.2.2.2.1, ihres.2.2.2.2⟩
      · -- day loop wrapped
        rw [hD] at h
        simp only [] at h
        obtain ⟨hlt3, hal3'⟩ := dspec.2 t3 rfl
        have ihres := ih t3 u h hal3'
        exact ⟨ihres.1, by omega, ihres.2.2.1, ihres.2.2.2.1, ihres.2.2.2.2⟩
    · -- month loop wrapped
      rw [hM] at h
      simp only [] at h
      obtain ⟨hlt2, hal2'⟩ := mspec.2 t2 rfl
      have ihres := ih t2 u h hal2'
      exact ⟨ihres.1, by omega, ihres.2.2.1, ihres.2.2.2.1, ihres.2.2.2.2⟩

/-! ## Top-level facts about `Next` and `Latest` -/

theorem Next_spec (s : SpecSchedule) (t u : Int) (h : Next s t = some u) :
    matchesF s u ∧ t < u ∧ u % nsS = 0 ∧ t + (nsS - t % nsS) ≤ u ∧
    NoMatchSeg s (t + (nsS - t % nsS)) u ∧
    tYear u ≤ tYear (t + (nsS - t % nsS)) + 5 ∧ tYear u ≤ maxYear := by
  unfold Next at h
  simp only [] at h
  have hal : (t + (nsS - t % nsS)) % nsS = 0 := by unfold nsS; omega
  have hw := nextWrap_spec s (tYear (t + (nsS - t % nsS)) + 5) searchFuel false
    (t + (nsS - t % nsS)) u h hal (by simp)
  obtain ⟨c1, c2, c3, c4, c5, c6⟩ := hw
  refine ⟨c1, ?_, c3, c2, c4, c5, c6⟩
  have : t < t + (nsS - t % nsS) := by unfold nsS; omega
  omega

theorem Latest_spec (s : SpecSchedule) (t u : Int) (h : Latest s t = some u) :
    matchesF s u ∧ u ≤ t ∧ u % nsS = 0 ∧ minYear ≤ tYear u ∧ tYear u ≤ maxYear := by
  unfold Latest at h
  simp only [] at h
  have hal : truncSec t % nsS = 0 := by unfold truncSec nsS; omega
  have hw := latestWrap_spec s (tYear (truncSec t) - 5) searchFuel (truncSec t) u h hal
  refine ⟨hw.1, ?_, hw.2.2⟩
  have : truncSec t ≤ t := by unfold truncSec nsS; omega
  omega

theorem nextWrap_at_match (s : SpecSchedule) (yl : Int) (f : Nat) (u : Int)
    (hm : matchesF s u) (h1 : tYear u ≤ yl)
    (h2 : tYear u ≤ maxYear) : nextWrap s yl (f + 1) false u = some u := by
  obtain ⟨⟨hy1, hy2⟩, hmo, hdm, hh, hmi, hs⟩ := hm
  simp only [nextWrap]
  rw [if_neg (by unfold maxYear at *; omega)]
  have hY : nextYearLoop s yl (f + 1) false u = some (u, false) := by
    simp only [nextYearLoop]
    rw [if_neg (by
      simp only [not_or, not_lt, not_not]
      exact ⟨hy1, hy2⟩)]
  rw [hY]
  simp only []
  have hM : nextMonthLoop s (f + 1) false u = some (.done u false) := by
    simp only [nextMonthLoop]
    rw [if_neg (by simp [hmo])]
  rw [hM]
  simp only []
  have hD : nextDayLoop s (f + 1) false u = some (.done u false) := by
    simp only [nextDayLoop]
    rw [if_neg (by simp [hdm])]
  rw [hD]
  simp only []
  have hH : nextHourLoop s (f + 1) false u = some (.done u false) := by
    simp only [nextHourLoop]
    rw [if_neg (by simp [hh])]
  rw [hH]
  simp only []
  have hMi : nextMinLoop s (f + 1) false u = some (.done u false) := by
    simp only [nextMinLoop]
    rw [if_neg (by simp [hmi])]
  rw [hMi]
  simp only []
  have hS : nextSecLoop s (f + 1) false u = some (.done u false) := by
    simp only [nextSecLoop]
    rw [if_neg (by simp [hs])]
  rw [hS]

theorem Next_at_match (s : SpecSchedule) (u : Int) (hm : matchesF s u)
    (hal : u % nsS = 0) (h2 : tYear u ≤ maxYear) : Next s (u - nsS) = some u := by
  unfold Next
  simp only []
  have he : u - nsS + (nsS - (u - nsS) % nsS) = u := by unfold nsS at *; omega
  rw [he]
  have hsf : searchFuel = 999999999 + 1 := by norm_num [searchFuel]
  rw [hsf]
  exact nextWrap_at_match s (tYear u + 5) 999999999 u hm (by omega) h2

theorem tYear_mono {a b : Int} (h : a ≤ b) : tYear a ≤ tYear b := by
  by_contra hc
  push_neg at hc
  have h1 := yearOfDays_bracket (dayNum a)
  have h2 := yearOfDays_bracket (dayNum b)
  have h3 : dayNum a ≤ dayNum b := by unfold dayNum nsDay; omega
  have h4 : toYS (tYear b + 1) ≤ toYS (tYear a) := toYS_mono (by omega)
  unfold tYear at *
  omega

/-! ## The end-of-month projector computes nothing -/

theorem eomBits_eq_zero (s : SpecSchedule) (t : Int) : eomBits s t = (0, 0) := by
  have hb : (bit s.Dow 0x00FE000000000000 >>> (6 * 8)) % 256 = 0 := by
    unfold bit
    split <;> rfl
  simp only [eomBits]
  rw [hb]
  by_cases hdom : s.Dom.testBit 0x00FF000000000000
  · simp only [bit, hdom, if_true, if_pos]
    rw [if_neg (by norm_num)]
    simp only [lt_irrefl, if_false]
    split_ifs <;> decide
  · simp [bit, hdom]

/-- Modelled from the spec: §4.3's Day Matcher formula — `domMatch` is the
plain Dom bit at the day-of-month OR membership of that day in the projected
end-of-month Dom set; `dowMatch` is the plain Dow bit at the weekday OR
membership of the day in the projected last-weekday set; the restricted/AND
flag on either vector selects conjunction, otherwise disjunction. -/
def dayMatchesSpec (s : SpecSchedule) (t : Int) : Bool :=
  let proj := eomBits s t
  let domMatch := s.Dom.testBit (tDay t).toNat || proj.1.testBit (tDay t).toNat
  let dowMatch := s.Dow.testBit (tWeekday t).toNat || proj.2.testBit (tDay t).toNat
  if s.Dom.testBit maxBits || s.Dow.testBit maxBits then domMatch && dowMatch
  else domMatch || dowMatch

/-! ## Claim theorems -/

/-- An all-wildcard schedule: every second/minute/hour/day/month/weekday/year
bit within each field's domain is set. -/
def wildSched : SpecSchedule :=
  ⟨2 ^ 60 - 1, 2 ^ 60 - 1, 2 ^ 24 - 1, 2 ^ 32 - 1, 2 ^ 13 - 1, 2 ^ 7 - 1, 2 ^ 130 - 1⟩

/-- A wildcard schedule whose Year vector is empty. -/
def noYearSched : SpecSchedule :=
  ⟨2 ^ 60 - 1, 2 ^ 60 - 1, 2 ^ 24 - 1, 2 ^ 32 - 1, 2 ^ 13 - 1, 2 ^ 7 - 1, 0⟩

/-- A schedule requesting only "the last day of the month" (Dom bit 55, the
`"l"` token of the bounds table), months/years wildcard, at 00:00:00. -/
def lastDomSched : SpecSchedule := ⟨1, 1, 1, 2 ^ 55, 2 ^ 13 - 1, 0, 2 ^ 130 - 1⟩

/-- A schedule requesting only "the last Friday of the month" (Dow bit 54,
the `"fril"` token of the bounds table), months/years wildcard, at 00:00:00. -/
def lastFriSched : SpecSchedule := ⟨1, 1, 1, 0, 2 ^ 13 - 1, 2 ^ 54, 2 ^ 130 - 1⟩

/-- C1: for every schedule and instant `t`, `Next` either returns the sentinel
(`none`, the zero time) or an instant strictly greater than `t` — the search
first advances `t` to the start of the next whole second, so a non-sentinel
result is never equal to `t`. -/
theorem C1_next_strictly_greater (s : SpecSchedule) (t u : Int)
    (h : Next s t = some u) : t < u :=
  (Next_spec s t u h).2.1

theorem C1_next_strictly_greater_witness :
    Next wildSched 0 = some 1000000000 ∧ (0 : Int) < 1000000000 :=
  ⟨by decide, C1_next_strictly_greater wildSched 0 1000000000 (by decide)⟩

/-- C2: for every schedule and instant `t`, `Latest` either returns the
sentinel (`none`) or an instant less than or equal to `t` — `t` is first
truncated down to the whole second and the search only moves backward. -/
theorem C2_latest_le (s : SpecSchedule) (t u : Int)
    (h : Latest s t = some u) : u ≤ t :=
  (Latest_spec s t u h).2.1

theorem C2_latest_le_witness :
    Latest wildSched 3500000000 = some 3000000000 ∧ (3000000000 : Int) ≤ 3500000000 :=
  ⟨by decide, C2_latest_le wildSched 3500000000 3000000000 (by decide)⟩

/-- C3: if no whole-second instant after `t`, within the five-calendar-year
lookahead window and at or below year 2099, satisfies every field of the
schedule, `Next` returns the sentinel; in particular a schedule whose Year
bit vector has no bit set for any year at or above `t`'s year makes `Next`
return the sentinel. -/
theorem C3_sentinel_on_exhaustion (s : SpecSchedule) (t : Int) :
    ((∀ v, t < v → v % nsS = 0 →
        tYear v ≤ tYear (t + (nsS - t % nsS)) + 5 → tYear v ≤ maxYear →
        ¬ matchesF s v) → Next s t = none) ∧
    ((∀ y : Int, tYear t ≤ y → s.Year.testBit (y - minYear).toNat = false) →
      Next s t = none) := by
  constructor
  · intro hnone
    rcases hN : Next s t with _ | u
    · rfl
    · exfalso
      have hw := Next_spec s t u hN
      exact hnone u hw.2.1 hw.2.2.1 hw.2.2.2.2.2.1 hw.2.2.2.2.2.2 hw.1
  · intro hempty
    rcases hN : Next s t with _ | u
    · rfl
    · exfalso
      have hw := Next_spec s t u hN
      have hy : tYear t ≤ tYear u := tYear_mono (le_of_lt hw.2.1)
      have hbit := hw.1.1.2
      rw [hempty (tYear u) hy] at hbit
      exact Bool.noConfusion hbit

theorem C3_sentinel_on_exhaustion_witness : Next noYearSched 0 = none :=
  (C3_sentinel_on_exhaustion noYearSched 0).2 (fun _ _ => Nat.zero_testBit _)

/-- C4: the Day Matcher computes exactly the spec's formula: `domMatch` is the
plain Dom bit at the day-of-month OR membership in the projected end-of-month
Dom set, `dowMatch` is the plain Dow bit at the weekday OR membership in the
projected last-weekday set, and the restricted/AND flag bit (bit 160) on
either Dom or Dow selects `domMatch AND dowMatch`, otherwise
`domMatch OR dowMatch`. -/
theorem C4_day_matcher_formula (s : SpecSchedule) (t : Int) :
    dayMatches s t = dayMatchesSpec s t := by
  simp [dayMatches, dayMatchesSpec, eomBits_eq_zero, Nat.zero_testBit, Nat.and_zero]

/-- C5 (code bug): a schedule with the "last day of month" request (Dom bit
55, the bounds table's `"l"` token) projects an *empty* end-of-month set for
February 2024, although the documented semantics (source comment lines
353-354 and spec §4.2) require the last day, 29, to be projected: `eomBits`
queries `Dom.Bit(0x00FF000000000000)` — a single bit at a huge index — where
the comment says bits 55-48 should be extracted with that value as a mask.
Consequently February 29th 2024 does not match the schedule. -/
theorem C5_last_day_request_ignored :
    eomBits lastDomSched (goDate 2024 2 1 0 0 0 0) = (0, 0) ∧
    dayMatches lastDomSched (goDate 2024 2 29 0 0 0 0) = false ∧
    tDay (goDate 2024 2 29 0 0 0 0) = 29 ∧
    daysInMonth 2024 2 = 29 := by decide

/-- C6 (code bug): a schedule with the "last Friday of month" request (Dow
bit 54, the bounds table's `"fril"` token) projects an *empty* last-weekday
set: `eomBits` computes `bDow` as `Dow.Bit(0x00FE000000000000) >> 48`, which
is always zero, where the intent was to extract Dow's bits 48-55.  October
2025 ends on a Friday and June 2026 ends on a Tuesday (last Friday June 26),
yet neither day matches the schedule. -/
theorem C6_last_weekday_request_ignored :
    eomBits lastFriSched (goDate 2025 10 31 0 0 0 0) = (0, 0) ∧
    tWeekday (goDate 2025 10 31 0 0 0 0) = 5 ∧
    dayMatches lastFriSched (goDate 2025 10 31 0 0 0 0) = false ∧
    tWeekday (goDate 2026 6 30 0 0 0 0) = 2 ∧
    tWeekday (goDate 2026 6 26 0 0 0 0) = 5 ∧
    dayMatches lastFriSched (goDate 2026 6 26 0 0 0 0) = false := by decide

/-- C7: for a fixed schedule, `Next` is monotone — if `t1 ≤ t2` and both
searches return non-sentinel results, then `Next(t1) ≤ Next(t2)`. -/
theorem C7_next_monotone (s : SpecSchedule) (t1 t2 u1 u2 : Int) (hle : t1 ≤ t2)
    (h1 : Next s t1 = some u1) (h2 : Next s t2 = some u2) : u1 ≤ u2 := by
  by_contra hc
  push_neg at hc
  have w1 := Next_spec s t1 u1 h1
  have w2 := Next_spec s t2 u2 h2
  have hge : t1 + (nsS - t1 % nsS) ≤ u2 := by
    have := w2.2.1
    have := w2.2.2.1
    unfold nsS at *
    omega
  exact w1.2.2.2.2.1 u2 hge hc w2.2.2.1 w2.1

theorem C7_next_monotone_witness :
    (0 : Int) ≤ 1000000000 ∧ Next wildSched 0 = some 1000000000 ∧
    Next wildSched 1000000000 = some 2000000000 ∧
    (1000000000 : Int) ≤ 2000000000 :=
  ⟨by decide, by decide, by decide,
    C7_next_monotone wildSched 0 1000000000 1000000000 2000000000 (by decide)
      (by decide) (by decide)⟩

/-- C8: if `Latest(t)` is non-sentinel, then `Next` applied to the instant one
second before `Latest(t)` returns exactly `Latest(t)`. -/
theorem C8_latest_next_fixed_point (s : SpecSchedule) (t u : Int)
    (h : Latest s t = some u) : Next s (u - nsS) = some u := by
  have hw := Latest_spec s t u h
  exact Next_at_match s u hw.1 hw.2.2.1 hw.2.2.2.2

theorem C8_latest_next_fixed_point_witness :
    Latest wildSched 1500000000 = some 1000000000 ∧
    Next wildSched (1000000000 - nsS) = some 1000000000 :=
  ⟨by decide,
    C8_latest_next_fixed_point wildSched 1500000000 1000000000 (by decide)⟩

/-- C9: for every schedule (the bit vectors are non-negative integers),
`eomBits` returns `(0, 0)` on every input — both guard lookups read a single
bit at index `0x00FF000000000000` (resp. a bit shifted right by 48) — and
consequently `dayMatches` depends only on the plain Dom bit at the
day-of-month, the plain Dow bit at the weekday, and the AND/OR flag bit at
position 160; the end-of-month request bits 48-55 never affect it. -/
theorem C9_eomBits_always_zero (s : SpecSchedule) (t : Int) :
    eomBits s t = (0, 0) ∧
    dayMatches s t =
      (if s.Dom.testBit 160 || s.Dow.testBit 160 then
        s.Dom.testBit (tDay t).toNat && s.Dow.testBit (tWeekday t).toNat
      else s.Dom.testBit (tDay t).toNat || s.Dow.testBit (tWeekday t).toNat) := by
  refine ⟨eomBits_eq_zero s t, ?_⟩
  simp [dayMatches, eomBits_eq_zero, Nat.and_zero, maxBits]

/-- C10: every non-sentinel result of `Next` and of `Latest` lies exactly on
a whole-second boundary (zero nanosecond component). -/
theorem C10_results_whole_seconds (s : SpecSchedule) (t u v : Int) :
    (Next s t = some u → u % nsS = 0) ∧ (Latest s t = some v → v % nsS = 0) :=
  ⟨fun h => (Next_spec s t u h).2.2.1, fun h => (Latest_spec s t v h).2.2.1⟩

theorem C10_results_whole_seconds_witness :
    (Next wildSched 500000000 = some 1000000000 ∧ (1000000000 : Int) % nsS = 0) ∧
    (Latest wildSched 3500000000 = some 3000000000 ∧ (3000000000 : Int) % nsS = 0) :=
  ⟨⟨by decide,
    (C10_results_whole_seconds wildSched 500000000 1000000000 3000000000).1 (by decide)⟩,
   ⟨by decide,
    (C10_results_whole_seconds wildSched 3500000000 1000000000 3000000000).2 (by decide)⟩⟩

end Cron
